import Mathlib

/-!
Shallow embedding of the SpiNNer wiring-guide generator (`wiring_guide.py`)
together with the parts of the topology/transform model it drives.

The repository source available here is the driver `wiring_guide.py`.  The
`model.*` modules it imports (`topology`, `board`, `transforms`, `metrics`,
`coordinates`) are not part of the source tree, so those definitions are
modelled from the specification, as marked in their doc comments.  Everything
taken from `wiring_guide.py` itself (histogram binning, cabinet wire
statistics, packet-loop metric, relative-wire grouping, wiring-instruction
tables, the pipeline driver) is translated directly from that file.

Conventions: Python 2 integer division is `Int`/`Nat` floor division;
physical (floating point) lengths are modelled as rationals; Python tuples
are products; Python dicts keyed in insertion order are association lists.

The file is organised as definitions first, then theorems.
-/

namespace SpiNNer

/-! ## Definitions -/

/-! ### Topology model: directions and boards

Modelled from the spec: `model.topology` direction constants and
`model.board` are absent from the source tree. -/

/-- Modelled from the spec: the six wire directions of `model.topology`
(`NORTH, NORTH_EAST, EAST, SOUTH, SOUTH_WEST, WEST`). -/
inductive Direction : Type
  | north
  | northEast
  | east
  | south
  | southWest
  | west
deriving DecidableEq, Repr

/-- Modelled from the spec: `topology.opposite`; each direction has a unique
opposite (North-South, NorthEast-SouthWest, East-West). -/
def opposite : Direction → Direction
  | .north => .south
  | .northEast => .southWest
  | .east => .west
  | .south => .north
  | .southWest => .northEast
  | .west => .east

/-- The three principal wiring directions of `DIRECTION_COLOURS`
(`wiring_guide.py` line 130): North, East, SouthWest. -/
def principal_directions : List Direction := [.north, .east, .southWest]

/-- Modelled from the spec: a board of a `width` by `height` torus of
threeboards, identified by its hexagonal coordinate `(x, y, z)` with
`z < 3` selecting the board inside its triad (`board.create_torus` builds
`3 * width * height` such boards). -/
abbrev Board (w h : ℕ) : Type := ZMod w × ZMod h × ZMod 3

/-- Modelled from the spec: `Board.follow_wire`, the total function giving the
neighbouring board in each direction, with wraparound adjacency on both axes.
The neighbour table is the standard threeboard (triad) tiling of the
hexagonal mesh: every wire joins boards of different `z`, and the opposite
direction traverses the same wire backwards. -/
def follow_wire {w h : ℕ} : Direction → Board w h → Board w h
  | .east, (x, y, z) =>
      if z = 0 then (x, y, 1) else if z = 1 then (x, y - 1, 2) else (x + 1, y, 0)
  | .west, (x, y, z) =>
      if z = 1 then (x, y, 0) else if z = 2 then (x, y + 1, 1) else (x - 1, y, 2)
  | .north, (x, y, z) =>
      if z = 0 then (x, y + 1, 1) else if z = 1 then (x, y, 2) else (x + 1, y + 1, 0)
  | .south, (x, y, z) =>
      if z = 1 then (x, y - 1, 0) else if z = 2 then (x, y, 1) else (x - 1, y - 1, 2)
  | .northEast, (x, y, z) =>
      if z = 0 then (x, y, 2) else if z = 1 then (x + 1, y, 0) else (x + 1, y + 1, 1)
  | .southWest, (x, y, z) =>
      if z = 2 then (x, y, 0) else if z = 0 then (x - 1, y, 1) else (x - 1, y - 1, 2)

/-! ### Wire length histogram (`calculate_wire_length_stats`, lines 379-435)

The per-direction frequency-count computation is translated from
`wiring_guide.py` lines 400-421.  Wire lengths are physical distances
(Python floats), modelled as rationals; `bin_len` is computed with true
division exactly as `(max_len - min_len) / num_bins` is in the source. -/

/-- One step of building the histogram dict `hist` (lines 404-405):
`hist[length] = hist.get(length, 0) + 1` on an insertion-ordered
association list. -/
def hist_insert (h : List (ℚ × ℕ)) (l : ℚ) : List (ℚ × ℕ) :=
  if h.any (fun p => decide (p.1 = l)) then
    h.map (fun p => if p.1 = l then (p.1, p.2 + 1) else p)
  else h ++ [(l, 1)]

/-- The histogram dictionary `hist` of `calculate_wire_length_stats`
(lines 403-405): an insertion-ordered map from a wire length to the number of
times it occurs. -/
def length_hist (lengths : List ℚ) : List (ℚ × ℕ) :=
  lengths.foldl hist_insert []

/-- Minimum of a list of rationals; `min(hist)` in the source raises on an
empty dict, which never happens because every direction has at least one
wire, so the empty case is immaterial here. -/
def list_min : List ℚ → ℚ
  | [] => 0
  | x :: xs => xs.foldl min x

/-- Maximum of a list of rationals; see `list_min` for the empty case. -/
def list_max : List ℚ → ℚ
  | [] => 0
  | x :: xs => xs.foldl max x

/-- The count of one histogram bin (lines 417-418):
`sum(c for (l, c) in hist.iteritems() if bin_start < l <= bin_end)`. -/
def bin_count (hist : List (ℚ × ℕ)) (bin_start bin_end : ℚ) : ℕ :=
  ((hist.filter (fun p => decide (bin_start < p.1 ∧ p.1 ≤ bin_end))).map Prod.snd).sum

/-- The `out_frequencies` list built for one direction (lines 407-418):
equal-width bins over `[min_len, max_len]`, the first bin starting at `0.0`. -/
def out_frequencies (lengths : List ℚ) (num_bins : ℕ) : List (ℚ × ℚ × ℕ) :=
  let hist := length_hist lengths
  let min_len := list_min (hist.map Prod.fst)
  let max_len := list_max (hist.map Prod.fst)
  let bin_len := (max_len - min_len) / (num_bins : ℚ)
  (List.range num_bins).map
    (fun bin_num : ℕ =>
      let bin_start : ℚ := if 0 < bin_num then min_len + (bin_num : ℚ) * bin_len else 0
      let bin_end : ℚ := min_len + (bin_num : ℚ) * bin_len + bin_len
      (bin_start, bin_end, bin_count hist bin_start bin_end))

/-- The per-direction entry appended to `freq_stats` (lines 420-421): the
bins sorted by bin start. -/
def freq_stats_bins (lengths : List ℚ) (num_bins : ℕ) : List (ℚ × ℚ × ℕ) :=
  (out_frequencies lengths num_bins).mergeSort (fun a b => decide (a.1 ≤ b.1))

/-! ### Packet loop metric (`generate_packet_loop`, lines 269-291)

Line 291 converts the number of recorded `(entry_direction, board)` pairs to
a chip-count metric with Python 2 integer division:
`((len(loop)*3)/2) * 4`. -/

/-- The value returned by `generate_packet_loop` as a function of the length
of the traversed packet loop (line 291, Python 2 floor division). -/
def packet_loop_metric (loop_len : ℕ) : ℕ :=
  loop_len * 3 / 2 * 4

/-! ### Cabinet wire statistics (`calculate_wire_cabinet_stats`, lines 323-368)

A cabinet coordinate is the `(cabinet, rack, slot)` triple produced by
`transforms.cabinetise`. -/

/-- A `(cabinet, rack, slot)` coordinate triple. -/
abbrev CabinetCoord : Type := ℤ × ℤ × ℤ

/-- Modelled from the spec: componentwise `abs(target - source)` on cabinet
coordinate triples (the arithmetic of the absent `model.coordinates`
module), unpacked as `cabinets, racks, slots` on line 341. -/
def coord_abs_diff (target source : CabinetCoord) : CabinetCoord :=
  (|target.1 - source.1|, |target.2.1 - source.2.1|, |target.2.2 - source.2.2|)

/-- The branch chosen on lines 343-350 for one wire: `0` = the
between-cabinets counter, `1` = the between-racks counter, `2` = the in-rack
counter, `3` = the final `assert(False)` branch, which counts nothing. -/
def wire_class (source target : CabinetCoord) : ℕ :=
  let d := coord_abs_diff target source
  if 0 < d.1 then 0 else if 0 < d.2.1 then 1 else if 0 < d.2.2 then 2 else 3

/-- The three counters accumulated for one direction over all boards
(lines 337-350): between-cabinets, between-racks, in-rack. -/
def direction_counters {B : Type} (boards : List B) (b2c : B → CabinetCoord)
    (fw : B → B) : ℕ × ℕ × ℕ :=
  boards.foldl
    (fun c b =>
      let k := wire_class (b2c b) (b2c (fw b))
      if k = 0 then (c.1 + 1, c.2.1, c.2.2)
      else if k = 1 then (c.1, c.2.1 + 1, c.2.2)
      else if k = 2 then (c.1, c.2.1, c.2.2 + 1)
      else c)
    (0, 0, 0)

/-- The per-direction statistics table of `calculate_wire_cabinet_stats`:
counters for each principal direction. -/
def calculate_wire_cabinet_stats {B : Type} (boards : List B)
    (b2c : B → CabinetCoord) (fw : Direction → B → B) :
    List (Direction × (ℕ × ℕ × ℕ)) :=
  principal_directions.map (fun d => (d, direction_counters boards b2c (fw d)))

/-! ### Wiring loops (`generate_wiring_loop`, lines 248-266)

`board.follow_wiring_loop` is modelled from the spec: from a start board,
repeatedly apply `follow_wire` in a fixed direction until the start board
recurs, yielding the visited boards.  The recursion is fuel-bounded by the
board count, which the termination theorem shows is never exhausted. -/

/-- Modelled from the spec: the loop generator of `board.follow_wiring_loop`;
yields the current board and stops once the wire leads back to the start. -/
def wiring_loop_aux {B : Type} [DecidableEq B] (f : B → B) (start : B) :
    B → ℕ → List B
  | _, 0 => []
  | cur, fuel + 1 =>
      cur :: (if f cur = start then [] else wiring_loop_aux f start (f cur) fuel)

/-- Modelled from the spec: `board.follow_wiring_loop(start_board, direction)`
with fuel `3 * w * h`, the total board count. -/
def follow_wiring_loop {w h : ℕ} (d : Direction) (start : Board w h) :
    List (Board w h) :=
  wiring_loop_aux (follow_wire d) start start (3 * w * h)

/-- `generate_wiring_loop` (lines 248-266) returns `len(loop)`; the diagram
side effects are rendering, outside this model, and the `c2b` lookup merely
translates the `start` coordinate into its board. -/
def generate_wiring_loop {w h : ℕ} (d : Direction) (start : Board w h) : ℕ :=
  (follow_wiring_loop d start).length

/-! ### Wiring pattern finding (lines 448-496)

`get_relative_wires`, `group_relative_wires` and `distinct_count` are
translated from `wiring_guide.py`.  Python dicts (insertion ordered) are
association lists, `frozenset`s are `Finset`s. -/

/-- The dict lookup `b2c[board]` where `b2c = dict(boards)`; every queried
board has a coordinate, so the default for a missing key (Python raises
there) is immaterial. -/
def dict_lookup {B : Type} [DecidableEq B] (boards : List (B × CabinetCoord))
    (b : B) : CabinetCoord :=
  ((boards.find? (fun p => decide (p.1 = b))).map Prod.snd).getD (0, 0, 0)

/-- `get_relative_wires(boards, direction)` (lines 448-462): pairs each
board coordinate with the coordinate of its wire target relative to itself;
`fw` is `follow_wire(direction)` on boards. -/
def get_relative_wires {B : Type} [DecidableEq B]
    (boards : List (B × CabinetCoord)) (fw : B → B) :
    List (CabinetCoord × CabinetCoord) :=
  boards.map (fun bc => (bc.2, dict_lookup boards (fw bc.1) - bc.2))

/-- One step of `group_relative_wires` (line 480):
`groups[group_key(coord)].add((elem_key(coord), wire_relative_target))` on a
defaultdict of sets. -/
def add_to_group {K E : Type} [DecidableEq K] [DecidableEq E]
    (groups : List (K × Finset (E × CabinetCoord))) (k : K)
    (v : E × CabinetCoord) : List (K × Finset (E × CabinetCoord)) :=
  if groups.any (fun g => decide (g.1 = k)) then
    groups.map (fun g => if g.1 = k then (g.1, insert v g.2) else g)
  else groups ++ [(k, {v})]

/-- `group_relative_wires(rel_wires, group_key, elem_key)` (lines 465-482):
the insertion-ordered map from group key to the frozenset of
`(elem, wire_relative_target)` pairs of that group. -/
def group_relative_wires {K E : Type} [DecidableEq K] [DecidableEq E]
    (rel_wires : List (CabinetCoord × CabinetCoord))
    (group_key : CabinetCoord → K) (elem_key : CabinetCoord → E) :
    List (K × Finset (E × CabinetCoord)) :=
  rel_wires.foldl (fun gs cw => add_to_group gs (group_key cw.1) (elem_key cw.1, cw.2)) []

/-- One step of `distinct_count` (lines 485-496): `counts[item] += 1` on a
defaultdict. -/
def count_insert {A : Type} [DecidableEq A] (cs : List (A × ℕ)) (a : A) :
    List (A × ℕ) :=
  if cs.any (fun c => decide (c.1 = a)) then
    cs.map (fun c => if c.1 = a then (c.1, c.2 + 1) else c)
  else cs ++ [(a, 1)]

/-- `distinct_count(iterable)` (lines 485-496): the number of times each
distinct item appears. -/
def distinct_count {A : Type} [DecidableEq A] (items : List A) : List (A × ℕ) :=
  items.foldl count_insert []

/-! ### Wiring instructions (`generate_wiring_instructions`, lines 609-683)

A wire record end is `(cabinet, rack, slot, socket)`; socket names (strings
in the source) are modelled as naturals carrying the same total order used
by Python tuple comparison. -/

/-- A `(cabinet, rack, slot, socket)` end of a wiring record. -/
abbrev WireEnd : Type := ℤ × ℤ × ℤ × ℕ

/-- Python tuple comparison (non-strict) on wire ends, lexicographic. -/
def wire_end_le (a b : WireEnd) : Prop :=
  a.1 < b.1 ∨ (a.1 = b.1 ∧ (a.2.1 < b.2.1 ∨ (a.2.1 = b.2.1 ∧
    (a.2.2.1 < b.2.2.1 ∨ (a.2.2.1 = b.2.2.1 ∧ a.2.2.2 ≤ b.2.2.2)))))

instance (a b : WireEnd) : Decidable (wire_end_le a b) := by
  unfold wire_end_le
  infer_instance

/-- Python tuple comparison (non-strict) on `(source, target)` wire records,
lexicographic: first the source end, then the target end. -/
def wire_le (a b : WireEnd × WireEnd) : Prop :=
  (a.1.1 < b.1.1 ∨ (a.1.1 = b.1.1 ∧ (a.1.2.1 < b.1.2.1 ∨ (a.1.2.1 = b.1.2.1 ∧
    (a.1.2.2.1 < b.1.2.2.1 ∨ (a.1.2.2.1 = b.1.2.2.1 ∧ a.1.2.2.2 < b.1.2.2.2)))))) ∨
  (a.1 = b.1 ∧ wire_end_le a.2 b.2)

instance (a b : WireEnd × WireEnd) : Decidable (wire_le a b) := by
  unfold wire_le
  infer_instance

/-- `tuple(sorted([source, target]))` (line 644): the record stored with its
two ends in bottom-left to top-right order. -/
def sort_pair (s t : WireEnd) : WireEnd × WireEnd :=
  if wire_end_le s t then (s, t) else (t, s)

/-- `tuple(list(coord) + [socket_name])` (lines 640-641). -/
def mk_wire_end (c : CabinetCoord) (sock : ℕ) : WireEnd :=
  (c.1, c.2.1, c.2.2, sock)

/-- The `wires` list of `generate_wiring_instructions` (lines 635-644): for
each board and each principal direction, the sorted
`(source end, target end)` record. -/
def instruction_wires {B : Type} [DecidableEq B]
    (boards : List (B × CabinetCoord)) (socket_names : Direction → ℕ)
    (fw : Direction → B → B) : List (WireEnd × WireEnd) :=
  boards.flatMap
    (fun bc => principal_directions.map
      (fun d =>
        sort_pair (mk_wire_end bc.2 (socket_names d))
          (mk_wire_end (dict_lookup boards (fw d bc.1))
            (socket_names (opposite d)))))

/-- The scope branch of lines 653-662: `0` = same cabinet and rack
(`wires_between_slots`), `1` = same cabinet only (`wires_between_racks`),
`2` = different cabinet (`wires_between_cabinets`). -/
def wire_scope (p : WireEnd × WireEnd) : ℕ :=
  if p.1.1 = p.2.1 ∧ p.1.2.1 = p.2.2.1 then 0
  else if p.1.1 = p.2.1 then 1
  else 2

/-- The `wires_between_slots[(c, r)]` bucket: the defaultdict grouping of
lines 647-656 preserves encounter order, so each bucket is the
order-preserving selection of records of scope 0 whose source is in that
cabinet and rack. -/
def wires_between_slots (wires : List (WireEnd × WireEnd)) (c r : ℤ) :
    List (WireEnd × WireEnd) :=
  wires.filter (fun p => decide (wire_scope p = 0 ∧ p.1.1 = c ∧ p.1.2.1 = r))

/-- The `wires_between_racks[c]` bucket of lines 649-659. -/
def wires_between_racks (wires : List (WireEnd × WireEnd)) (c : ℤ) :
    List (WireEnd × WireEnd) :=
  wires.filter (fun p => decide (wire_scope p = 1 ∧ p.1.1 = c))

/-- The `wires_between_cabinets` list of lines 651-662. -/
def wires_between_cabinets (wires : List (WireEnd × WireEnd)) :
    List (WireEnd × WireEnd) :=
  wires.filter (fun p => decide (wire_scope p = 2))

/-- `generate_wiring_list(wires)` (lines 609-625) renders `sorted(wires)`
as table rows; the rendered order is the sorted record list. -/
def generate_wiring_list (wires : List (WireEnd × WireEnd)) :
    List (WireEnd × WireEnd) :=
  wires.mergeSort (fun a b => decide (wire_le a b))

/-! ### Coordinate transform pipeline (driver lines 71-106)

The `transforms` module is absent from the source tree; each stage is
modelled from the spec as a pure function on one board's coordinate, and the
driver lists below apply it to every `(board, coordinate)` pair exactly as
`wiring_guide.py` does.  The concrete hexagonal geometry realises the spec:
board `(X, Y, z)` occupies the skewed cartesian column `3*(X - Y) + z`
(the torus is a rhombus leaning left of the `x = 0` seam) at the wavy
height `2*Y` plus the column parity (the wobble of hex packing). -/

/-- Modelled from the spec: `transforms.hex_to_cartesian`, an
adjacency-shaped linear map of the axial hex coordinate into a skewed
Cartesian integer space with the hexagonal wobble on the y axis. -/
def hex_to_cartesian {w h : ℕ} (b : Board w h) : ℤ × ℤ :=
  let x : ℤ := 3 * ((b.1.val : ℤ) - (b.2.1.val : ℤ)) + (b.2.2.val : ℤ)
  (x, 2 * (b.2.1.val : ℤ) + x % 2)

/-- Modelled from the spec: `transforms.rhombus_to_rect`; boards left of the
`x = 0` seam are translated right by the full torus width (three board
columns per threeboard column) as many times as needed to land inside the
rectangle, i.e. reduced into `[0, 3w)`; boards at nonnegative `x` (always
below `3w` in this geometry) are untouched. -/
def rhombus_to_rect (w : ℕ) (c : ℤ × ℤ) : ℤ × ℤ :=
  (if c.1 < 0 then c.1 % (3 * (w : ℤ)) else c.1, c.2)

/-- Modelled from the spec: `transforms.compress(boards, x_div, y_div)`;
removes the wobble by dividing each axis by the configured divisor
(the driver passes `(1, 2)` when `compress_rows` is set, else `(2, 1)`;
the geometry here is the row-compressed one). -/
def compress (dx dy : ℕ) (c : ℤ × ℤ) : ℤ × ℤ :=
  (c.1 / (dx : ℤ), c.2 / (dy : ℤ))

/-- Modelled from the spec: `transforms.space_folds(boards, folds)`; inserts
one visual gap column/row at every fold boundary (`sx`, `sy` are the fold
sheet sizes along each axis).  Used only to draw diagrams. -/
def space_folds (sx sy : ℤ) (c : ℤ × ℤ) : ℤ × ℤ :=
  (c.1 + c.1 / sx, c.2 + c.2 / sy)

/-- One axis of `transforms.fold`: cut the axis into `count` sheets of
`size`, reverse orientation on alternating sheets (accordion fold) and
interleave the sheets. -/
def fold_axis (count size x : ℤ) : ℤ :=
  let sheet := x / size
  let pos := x % size
  let q := if sheet % 2 = 1 then size - 1 - pos else pos
  q * count + sheet

/-- Modelled from the spec: `transforms.fold(boards, (fold_x, fold_y))`,
the accordion fold and interleave on both axes. -/
def fold (fx fy sx sy : ℤ) (c : ℤ × ℤ) : ℤ × ℤ :=
  (fold_axis fx sx c.1, fold_axis fy sy c.2)

/-- Modelled from the spec: `transforms.cabinetise`; the folded grid cell
`(x, y)` of a grid of height `H` gets linear index `x*H + y`, cut into `ns`
slots per rack and `nr` racks per cabinet (requires the board count to equal
`num_cabinets * num_racks * num_slots`). -/
def cabinetise (H nr ns : ℤ) (c : ℤ × ℤ) : CabinetCoord :=
  let i := c.1 * H + c.2
  (i / ns / nr, (i / ns) % nr, i % ns)

/-- Modelled from the spec: `transforms.cabinet_to_physical`; pure
arithmetic from the cabinet triple to a 3D position with a horizontal step
per cabinet and per slot and a vertical step per rack. -/
def cabinet_to_physical (cab_step slot_step rack_step : ℚ) (c : CabinetCoord) :
    ℚ × ℚ × ℚ :=
  ((c.1 : ℚ) * cab_step + (c.2.2 : ℚ) * slot_step, (c.2.1 : ℚ) * rack_step, 0)

/-! #### Driver mappings (lines 71-106)

Each of the following is one assignment of the driver, a list of
`(board, coordinate)` pairs. -/

/-- Modelled from the spec: `board.create_torus(width, height)` (line 71):
all `3 * w * h` boards listed with their hexagonal coordinates, iterating
`y`, `x`, `z` innermost to outermost as the builder does. -/
def create_torus (w h : ℕ) : List (Board w h × Board w h) :=
  (List.range h).flatMap
    (fun y => (List.range w).flatMap
      (fun x => (List.range 3).map
        (fun z =>
          let b : Board w h := ((x : ZMod w), (y : ZMod h), (z : ZMod 3))
          (b, b))))

/-- `cart_torus = transforms.hex_to_cartesian(torus)` (line 74). -/
def cart_torus (w h : ℕ) : List (Board w h × (ℤ × ℤ)) :=
  (create_torus w h).map (fun bc => (bc.1, hex_to_cartesian bc.2))

/-- `rect_torus = transforms.rhombus_to_rect(cart_torus)` (line 78). -/
def rect_torus (w h : ℕ) : List (Board w h × (ℤ × ℤ)) :=
  (cart_torus w h).map (fun bc => (bc.1, rhombus_to_rect w bc.2))

/-- `comp_torus = transforms.compress(rect_torus, 1, 2)` (line 82, with
`compress_rows` set). -/
def comp_torus (w h : ℕ) : List (Board w h × (ℤ × ℤ)) :=
  (rect_torus w h).map (fun bc => (bc.1, compress 1 2 bc.2))

/-- `fold_spaced_torus = transforms.space_folds(comp_torus, (num_folds_x,
num_folds_y))` (line 87): diagram-only. -/
def fold_spaced_torus (w h fx fy : ℕ) : List (Board w h × (ℤ × ℤ)) :=
  (comp_torus w h).map
    (fun bc => (bc.1, space_folds (3 * (w : ℤ) / fx) ((h : ℤ) / fy) bc.2))

/-- `folded_torus = transforms.fold(comp_torus, (num_folds_x, num_folds_y))`
(line 90): the fold is applied to `comp_torus`, not to the spaced variant. -/
def folded_torus (w h fx fy : ℕ) : List (Board w h × (ℤ × ℤ)) :=
  (comp_torus w h).map
    (fun bc => (bc.1, fold fx fy (3 * (w : ℤ) / fx) ((h : ℤ) / fy) bc.2))

/-- `folded_spaced_torus = transforms.space_folds(folded_torus, ...)`
(line 93): diagram-only. -/
def folded_spaced_torus (w h fx fy : ℕ) : List (Board w h × (ℤ × ℤ)) :=
  (folded_torus w h fx fy).map
    (fun bc => (bc.1, space_folds (3 * (w : ℤ) / fx) ((h : ℤ) / fy) bc.2))

/-- `folded_cabinet_spaced_torus = transforms.space_folds(folded_torus,
(num_cabinets, num_racks_per_cabinet))` (line 96): diagram-only. -/
def folded_cabinet_spaced_torus (w h fx fy nc nr : ℕ) :
    List (Board w h × (ℤ × ℤ)) :=
  (folded_torus w h fx fy).map
    (fun bc => (bc.1, space_folds (3 * (w : ℤ) / nc) ((h : ℤ) / nr) bc.2))

/-- `cabinet_torus = transforms.cabinetise(folded_torus, num_cabinets,
num_racks_per_cabinet, num_slots_per_rack)` (lines 99-103). -/
def cabinet_torus (w h fx fy nr ns : ℕ) : List (Board w h × CabinetCoord) :=
  (folded_torus w h fx fy).map (fun bc => (bc.1, cabinetise h nr ns bc.2))

/-- `phys_torus = transforms.cabinet_to_physical(cabinet_torus,
cabinet_system)` (line 106). -/
def phys_torus (w h fx fy nr ns : ℕ) (cab_step slot_step rack_step : ℚ) :
    List (Board w h × (ℚ × ℚ × ℚ)) :=
  (cabinet_torus w h fx fy nr ns).map
    (fun bc => (bc.1, cabinet_to_physical cab_step slot_step rack_step bc.2))

/-- Concrete two-slot cabinet mapping used by the C3 witness. -/
def cab_wit (b : Bool) : CabinetCoord :=
  if b then (0, 0, 1) else (0, 0, 0)

/-- Concrete injective slot assignment of the 3-board torus used by the C10
witness. -/
def slot_wit (b : Board 1 1) : CabinetCoord :=
  (0, 0, (b.2.2.val : ℤ))

/-! ## Theorems -/

theorem zmod3_cases (z : ZMod 3) : z = 0 ∨ z = 1 ∨ z = 2 := by
  revert z
  decide

theorem zmod3_lit_eqs :
    (((0 : ZMod 3) = 0) ↔ True) ∧ (((0 : ZMod 3) = 1) ↔ False) ∧
    (((0 : ZMod 3) = 2) ↔ False) ∧ (((1 : ZMod 3) = 0) ↔ False) ∧
    (((1 : ZMod 3) = 1) ↔ True) ∧ (((1 : ZMod 3) = 2) ↔ False) ∧
    (((2 : ZMod 3) = 0) ↔ False) ∧ (((2 : ZMod 3) = 1) ↔ False) ∧
    (((2 : ZMod 3) = 2) ↔ True) := by
  decide

/-- Following the opposite direction undoes `follow_wire`. -/
theorem follow_wire_opposite_follow_wire {w h : ℕ} (d : Direction) (b : Board w h) :
    follow_wire (opposite d) (follow_wire d b) = b := by
  obtain ⟨x, y, z⟩ := b
  rcases zmod3_cases z with hz | hz | hz <;> subst hz <;> cases d <;>
    simp [follow_wire, opposite, zmod3_lit_eqs, Prod.ext_iff]

/-- `follow_wire` in a fixed direction is a bijection on the board set. -/
theorem follow_wire_bijective {w h : ℕ} (d : Direction) :
    Function.Bijective (follow_wire (w := w) (h := h) d) := by
  apply Function.bijective_iff_has_inverse.mpr
  refine ⟨follow_wire (opposite d), fun b => follow_wire_opposite_follow_wire d b, fun b => ?_⟩
  have h1 := follow_wire_opposite_follow_wire (opposite d) b
  have h2 : opposite (opposite d) = d := by cases d <;> rfl
  rwa [h2] at h1

/-- Every wire changes the in-triad index `z`: the two endpoints of a wire are
always different boards. -/
theorem follow_wire_ne {w h : ℕ} (d : Direction) (b : Board w h) :
    follow_wire d b ≠ b := by
  obtain ⟨x, y, z⟩ := b
  rcases zmod3_cases z with hz | hz | hz <;> subst hz <;> cases d <;>
    simp [follow_wire, zmod3_lit_eqs, Prod.ext_iff]

/-! ### Histogram theorems (C1, C6) -/

/-- C1: Scenario B.  For wire lengths `[1,1,1,5,5,9]` and 5 requested bins,
`calculate_wire_length_stats` produces exactly the five bins
`(0, 2.6] (2.6, 4.2] (4.2, 5.8] (5.8, 7.4] (7.4, 9]`: they span `[0, 9]`,
the only nonzero counts are in the bins containing 1, 5 and 9 (counts 3, 2
and 1), and the counts sum to 6. -/
theorem wire_length_stats_scenario_b :
    freq_stats_bins [1, 1, 1, 5, 5, 9] 5 =
      [(0, 13/5, 3), (13/5, 21/5, 0), (21/5, 29/5, 2), (29/5, 37/5, 0), (37/5, 9, 1)] ∧
    (freq_stats_bins [1, 1, 1, 5, 5, 9] 5).length = 5 ∧
    (freq_stats_bins [1, 1, 1, 5, 5, 9] 5).head?.map (fun t => t.1) = some 0 ∧
    (freq_stats_bins [1, 1, 1, 5, 5, 9] 5).getLast?.map (fun t => t.2.1) = some 9 ∧
    ((freq_stats_bins [1, 1, 1, 5, 5, 9] 5).map (fun t => t.2.2)).sum = 6 ∧
    (freq_stats_bins [1, 1, 1, 5, 5, 9] 5).all
      (fun t => decide (t.2.2 ≠ 0 ↔
        ((t.1 < 1 ∧ 1 ≤ t.2.1) ∨ (t.1 < 5 ∧ 5 ≤ t.2.1) ∨ (t.1 < 9 ∧ 9 ≤ t.2.1)))) = true := by
  have he : freq_stats_bins [1, 1, 1, 5, 5, 9] 5 =
      [(0, 13/5, 3), (13/5, 21/5, 0), (21/5, 29/5, 2), (29/5, 37/5, 0), (37/5, 9, 1)] := by
    norm_num [freq_stats_bins, out_frequencies, length_hist, hist_insert, list_min, list_max,
      bin_count, List.range_succ, List.filter_cons, List.foldl, List.mergeSort]
  rw [he]
  norm_num [List.getLast?, List.all_cons]

theorem hist_insert_same (L : ℚ) (k : ℕ) : hist_insert [(L, k)] L = [(L, k + 1)] := by
  simp [hist_insert]

theorem foldl_hist_insert_replicate (L : ℚ) :
    ∀ (m k : ℕ), List.foldl hist_insert [(L, k)] (List.replicate m L) = [(L, k + m)] := by
  intro m
  induction m with
  | zero => simp
  | succ m ih =>
      intro k
      rw [List.replicate_succ, List.foldl_cons, hist_insert_same, ih]
      norm_num
      omega

/-- On a zero-variance length list the histogram dict has the single entry
`(L, n)`. -/
theorem length_hist_replicate (L : ℚ) (n : ℕ) (hn : 0 < n) :
    length_hist (List.replicate n L) = [(L, n)] := by
  obtain ⟨m, rfl⟩ : ∃ m, n = m + 1 := ⟨n - 1, by omega⟩
  rw [length_hist, List.replicate_succ, List.foldl_cons]
  have h0 : hist_insert [] L = [(L, 1)] := by simp [hist_insert]
  rw [h0, foldl_hist_insert_replicate]
  norm_num
  omega

/-- On a zero-variance length list every bin after the first is the empty bin
`(L, L, 0)` and the first bin is `(0, L, n)`. -/
theorem out_frequencies_replicate (L : ℚ) (n nb : ℕ) (hL : 0 < L) (hn : 0 < n) :
    out_frequencies (List.replicate n L) nb =
      (List.range nb).map (fun b => if 0 < b then ((L : ℚ), L, 0) else (0, L, n)) := by
  rw [out_frequencies, length_hist_replicate L n hn]
  apply List.map_congr_left
  intro b _
  have hfst : ([((L : ℚ), n)].map Prod.fst) = [L] := by simp
  rw [hfst]
  have hmin : list_min [L] = L := by simp [list_min]
  have hmax : list_max [L] = L := by simp [list_max]
  rw [hmin, hmax]
  have hbl : (L - L) / (nb : ℚ) = 0 := by simp
  rw [hbl]
  rcases Nat.eq_zero_or_pos b with hb | hb
  · subst hb
    simp [bin_count, List.filter_cons, hL, le_refl]
  · have hsb : (if 0 < b then L + (b : ℚ) * 0 else 0) = L := by
      rw [if_pos hb]
      ring
    simp only [hsb, if_pos hb]
    have hcount : bin_count [(L, n)] L (L + (b : ℚ) * 0 + 0) = 0 := by
      simp [bin_count, List.filter_cons]
    rw [hcount]
    norm_num

/-- C6: on zero-variance input (every wire length equal to some positive
`L`), the frequency-count computation of `calculate_wire_length_stats` still
produces `num_bins` bins (no division by zero occurs: only `num_bins`
denominates `bin_len`), and exactly one bin has a nonzero count: the first
bin `(0, L]`, which holds all `n` lengths; every other bin has count zero. -/
theorem wire_length_stats_zero_variance (L : ℚ) (n num_bins : ℕ)
    (hL : 0 < L) (hn : 0 < n) (hb : 0 < num_bins) :
    (freq_stats_bins (List.replicate n L) num_bins).length = num_bins ∧
    (freq_stats_bins (List.replicate n L) num_bins).filter
      (fun t => decide (t.2.2 ≠ 0)) = [(0, L, n)] := by
  have hout := out_frequencies_replicate L n num_bins hL hn
  constructor
  · rw [freq_stats_bins, List.length_mergeSort, hout]
    simp
  · have hperm :
        List.Perm
          ((freq_stats_bins (List.replicate n L) num_bins).filter (fun t => decide (t.2.2 ≠ 0)))
          ((out_frequencies (List.replicate n L) num_bins).filter
            (fun t => decide (t.2.2 ≠ 0))) :=
      (List.mergeSort_perm (out_frequencies (List.replicate n L) num_bins) _).filter _
    rw [hout] at hperm
    obtain ⟨m, rfl⟩ : ∃ m, num_bins = m + 1 := ⟨num_bins - 1, by omega⟩
    rw [List.range_succ_eq_map] at hperm
    have hmap :
        ((0 :: (List.range m).map Nat.succ).map
            (fun b => if 0 < b then ((L : ℚ), L, 0) else (0, L, n))) =
          (0, L, n) :: List.replicate m ((L : ℚ), L, 0) := by
      rw [List.map_cons, List.map_map]
      have hcomp : ((fun b => if 0 < b then ((L : ℚ), L, 0) else (0, L, n)) ∘ Nat.succ) =
          (fun _ => ((L : ℚ), L, 0)) := by
        funext b
        simp [Nat.succ_pos]
      rw [hcomp, List.map_const']
      simp
    rw [hmap] at hperm
    have hfil : ((0, L, n) :: List.replicate m ((L : ℚ), L, 0)).filter
        (fun t => decide (t.2.2 ≠ 0)) = [(0, L, n)] := by
      rw [List.filter_cons]
      have h1 : (fun (t : ℚ × ℚ × ℕ) => decide (t.2.2 ≠ 0)) (0, L, n) = true := by
        simp
        omega
      rw [if_pos h1, List.filter_replicate]
      simp
    rw [hfil] at hperm
    exact hperm.eq_singleton

/-- C6 witness: two wires of common length 1, three requested bins. -/
theorem wire_length_stats_zero_variance_witness :
    (freq_stats_bins (List.replicate 2 (1 : ℚ)) 3).length = 3 ∧
    (freq_stats_bins (List.replicate 2 (1 : ℚ)) 3).filter
      (fun t => decide (t.2.2 ≠ 0)) = [(0, 1, 2)] :=
  wire_length_stats_zero_variance 1 2 3 (by norm_num) (by norm_num) (by norm_num)

/-! ### Packet loop metric theorems (C5) -/

/-- C5 counterexample: the value returned by `generate_packet_loop` is not a
fixed constant multiple of the loop length for all loop lengths.  A loop of
length 2 forces the constant to be 6, but `((1*3)/2)*4 = 4`, not 6, because
line 291 truncates `(len(loop)*3)/2` with integer division. -/
theorem packet_loop_metric_not_constant_multiple :
    ¬ ∃ c : ℚ, ∀ loop_len : ℕ, (packet_loop_metric loop_len : ℚ) = c * loop_len := by
  rintro ⟨c, hc⟩
  have h1 := hc 1
  have h2 := hc 2
  have e1 : packet_loop_metric 1 = 4 := by decide
  have e2 : packet_loop_metric 2 = 12 := by decide
  rw [e1] at h1
  rw [e2] at h2
  have hc6 : c = 6 := by
    have h12 : (12 : ℚ) = c * 2 := by exact_mod_cast h2
    linarith
  rw [hc6] at h1
  norm_num at h1

/-- C5 amended: for even loop lengths (the only lengths a closed packet loop
over whole triads produces) the metric equals the loop length multiplied by
the fixed hardware conversion constant `6 = (3/2) * 4` chips per recorded
step. -/
theorem packet_loop_metric_even (loop_len : ℕ) (he : Even loop_len) :
    packet_loop_metric loop_len = 6 * loop_len := by
  obtain ⟨k, hk⟩ := he
  subst hk
  unfold packet_loop_metric
  omega

/-- C5 witness: the amended statement at the concrete even length 2. -/
theorem packet_loop_metric_even_witness :
    packet_loop_metric 2 = 6 * 2 :=
  packet_loop_metric_even 2 (by decide)

/-! ### Cabinet wire statistics theorems (C3, C10) -/

theorem wire_class_eq_two_iff (s t : CabinetCoord) (hne : s ≠ t) :
    wire_class s t = 2 ↔ s.1 = t.1 ∧ s.2.1 = t.2.1 := by
  obtain ⟨s1, s2, s3⟩ := s
  obtain ⟨t1, t2, t3⟩ := t
  have hne2 : ¬(s1 = t1 ∧ s2 = t2 ∧ s3 = t3) := by
    simpa [Prod.ext_iff] using hne
  simp only [wire_class, coord_abs_diff, abs_pos, sub_ne_zero]
  by_cases h1 : t1 = s1 <;> by_cases h2 : t2 = s2 <;> by_cases h3 : t3 = s3 <;>
    simp [h1, h2, h3] <;> omega

theorem wire_class_eq_one_iff (s t : CabinetCoord) :
    wire_class s t = 1 ↔ s.1 = t.1 ∧ s.2.1 ≠ t.2.1 := by
  obtain ⟨s1, s2, s3⟩ := s
  obtain ⟨t1, t2, t3⟩ := t
  simp only [wire_class, coord_abs_diff, abs_pos, sub_ne_zero]
  by_cases h1 : t1 = s1 <;> by_cases h2 : t2 = s2 <;> by_cases h3 : t3 = s3 <;>
    simp [h1, h2, h3] <;> omega

theorem wire_class_eq_zero_iff (s t : CabinetCoord) :
    wire_class s t = 0 ↔ s.1 ≠ t.1 := by
  obtain ⟨s1, s2, s3⟩ := s
  obtain ⟨t1, t2, t3⟩ := t
  simp only [wire_class, coord_abs_diff, abs_pos, sub_ne_zero]
  by_cases h1 : t1 = s1 <;> by_cases h2 : t2 = s2 <;> by_cases h3 : t3 = s3 <;>
    simp [h1, h2, h3] <;> omega

theorem wire_class_cases (s t : CabinetCoord) (hne : s ≠ t) :
    wire_class s t = 0 ∨ wire_class s t = 1 ∨ wire_class s t = 2 := by
  obtain ⟨s1, s2, s3⟩ := s
  obtain ⟨t1, t2, t3⟩ := t
  have hne2 : ¬(s1 = t1 ∧ s2 = t2 ∧ s3 = t3) := by
    simpa [Prod.ext_iff] using hne
  simp only [wire_class, coord_abs_diff, abs_pos, sub_ne_zero]
  by_cases h1 : t1 = s1 <;> by_cases h2 : t2 = s2 <;> by_cases h3 : t3 = s3 <;>
    simp [h1, h2, h3] <;> omega

theorem direction_counters_foldl_step {B : Type} (boards : List B)
    (b2c : B → CabinetCoord) (fw : B → B) :
    ∀ c : ℕ × ℕ × ℕ,
      boards.foldl
        (fun c b =>
          let k := wire_class (b2c b) (b2c (fw b))
          if k = 0 then (c.1 + 1, c.2.1, c.2.2)
          else if k = 1 then (c.1, c.2.1 + 1, c.2.2)
          else if k = 2 then (c.1, c.2.1, c.2.2 + 1)
          else c)
        c =
      (c.1 + boards.countP (fun b => decide (wire_class (b2c b) (b2c (fw b)) = 0)),
       c.2.1 + boards.countP (fun b => decide (wire_class (b2c b) (b2c (fw b)) = 1)),
       c.2.2 + boards.countP (fun b => decide (wire_class (b2c b) (b2c (fw b)) = 2))) := by
  induction boards with
  | nil => simp
  | cons b bs ih =>
      intro c
      rw [List.foldl_cons, ih, List.countP_cons, List.countP_cons, List.countP_cons]
      rcases Nat.lt_or_ge (wire_class (b2c b) (b2c (fw b))) 4 with h4 | h4
      · interval_cases hk : wire_class (b2c b) (b2c (fw b)) <;>
          simp [hk] <;> omega
      · have h0 : ¬ wire_class (b2c b) (b2c (fw b)) = 0 := by omega
        have h1 : ¬ wire_class (b2c b) (b2c (fw b)) = 1 := by omega
        have h2 : ¬ wire_class (b2c b) (b2c (fw b)) = 2 := by omega
        simp [h0, h1, h2]

theorem countP_wire_class_sum {B : Type} (b2c : B → CabinetCoord) (fw : B → B) :
    ∀ boards : List B, (∀ b ∈ boards, b2c b ≠ b2c (fw b)) →
      boards.countP (fun b => decide (wire_class (b2c b) (b2c (fw b)) = 0)) +
        boards.countP (fun b => decide (wire_class (b2c b) (b2c (fw b)) = 1)) +
        boards.countP (fun b => decide (wire_class (b2c b) (b2c (fw b)) = 2)) =
        boards.length := by
  intro boards
  induction boards with
  | nil => simp
  | cons b bs ih =>
      intro hne
      have hb := hne b (by simp)
      have hbs : ∀ x ∈ bs, b2c x ≠ b2c (fw x) := fun x hx => hne x (by simp [hx])
      rw [List.countP_cons, List.countP_cons, List.countP_cons, List.length_cons]
      have hsum := ih hbs
      rcases wire_class_cases _ _ hb with hk | hk | hk <;> simp [hk] <;> omega

/-- C3: for every board (and hence for every principal direction the driver
iterates over), `calculate_wire_cabinet_stats` classifies the wire by
comparing the source and target cabinet triples: in-rack iff cabinet and
rack agree, between-racks iff the cabinet agrees and the rack differs,
between-cabinets iff the cabinet differs; the three counters accumulate
exactly those wires, and since each wire falls in exactly one class the
counters sum to the number of boards. -/
theorem wire_cabinet_stats_classification {B : Type} (boards : List B)
    (b2c : B → CabinetCoord) (fw : B → B)
    (hne : ∀ b ∈ boards, b2c b ≠ b2c (fw b)) :
    (∀ b ∈ boards,
      (wire_class (b2c b) (b2c (fw b)) = 2 ↔
        (b2c b).1 = (b2c (fw b)).1 ∧ (b2c b).2.1 = (b2c (fw b)).2.1) ∧
      (wire_class (b2c b) (b2c (fw b)) = 1 ↔
        (b2c b).1 = (b2c (fw b)).1 ∧ (b2c b).2.1 ≠ (b2c (fw b)).2.1) ∧
      (wire_class (b2c b) (b2c (fw b)) = 0 ↔ (b2c b).1 ≠ (b2c (fw b)).1)) ∧
    (direction_counters boards b2c fw).1 =
      boards.countP (fun b => decide (wire_class (b2c b) (b2c (fw b)) = 0)) ∧
    (direction_counters boards b2c fw).2.1 =
      boards.countP (fun b => decide (wire_class (b2c b) (b2c (fw b)) = 1)) ∧
    (direction_counters boards b2c fw).2.2 =
      boards.countP (fun b => decide (wire_class (b2c b) (b2c (fw b)) = 2)) ∧
    (direction_counters boards b2c fw).1 + (direction_counters boards b2c fw).2.1 +
      (direction_counters boards b2c fw).2.2 = boards.length := by
  have hc : direction_counters boards b2c fw =
      (boards.countP (fun b => decide (wire_class (b2c b) (b2c (fw b)) = 0)),
       boards.countP (fun b => decide (wire_class (b2c b) (b2c (fw b)) = 1)),
       boards.countP (fun b => decide (wire_class (b2c b) (b2c (fw b)) = 2))) := by
    rw [direction_counters, direction_counters_foldl_step boards b2c fw (0, 0, 0)]
    norm_num
  refine ⟨fun b hb => ⟨wire_class_eq_two_iff _ _ (hne b hb), wire_class_eq_one_iff _ _,
      wire_class_eq_zero_iff _ _⟩, ?_, ?_, ?_, ?_⟩
  · rw [hc]
  · rw [hc]
  · rw [hc]
  · rw [hc]
    exact countP_wire_class_sum b2c fw boards hne

/-- C3 witness: a two-board list with explicit cabinet coordinates, the wire
joining slot (0,0,0) to slot (0,0,1) both ways. -/
theorem wire_cabinet_stats_classification_witness :
    (∀ b ∈ [false, true],
      (wire_class (cab_wit b) (cab_wit (not b)) = 2 ↔
        (cab_wit b).1 = (cab_wit (not b)).1 ∧ (cab_wit b).2.1 = (cab_wit (not b)).2.1) ∧
      (wire_class (cab_wit b) (cab_wit (not b)) = 1 ↔
        (cab_wit b).1 = (cab_wit (not b)).1 ∧ (cab_wit b).2.1 ≠ (cab_wit (not b)).2.1) ∧
      (wire_class (cab_wit b) (cab_wit (not b)) = 0 ↔ (cab_wit b).1 ≠ (cab_wit (not b)).1)) ∧
    (direction_counters [false, true] cab_wit not).1 =
      ([false, true]).countP (fun b => decide (wire_class (cab_wit b) (cab_wit (not b)) = 0)) ∧
    (direction_counters [false, true] cab_wit not).2.1 =
      ([false, true]).countP (fun b => decide (wire_class (cab_wit b) (cab_wit (not b)) = 1)) ∧
    (direction_counters [false, true] cab_wit not).2.2 =
      ([false, true]).countP (fun b => decide (wire_class (cab_wit b) (cab_wit (not b)) = 2)) ∧
    (direction_counters [false, true] cab_wit not).1 +
      (direction_counters [false, true] cab_wit not).2.1 +
      (direction_counters [false, true] cab_wit not).2.2 = ([false, true] : List Bool).length :=
  wire_cabinet_stats_classification [false, true] cab_wit not (by decide)

/-- C10: under an injective board-to-cabinet-coordinate mapping (the
bijective `cabinet_torus` mapping), the wire target triple always differs
from the source triple for every direction, so the `assert(False)` branch of
`calculate_wire_cabinet_stats` (class `3`) is unreachable and every wire is
classified. -/
theorem wire_cabinet_stats_assert_unreachable {w h : ℕ}
    (b2c : Board w h → CabinetCoord) (hinj : Function.Injective b2c)
    (d : Direction) (b : Board w h) :
    b2c b ≠ b2c (follow_wire d b) ∧
    wire_class (b2c b) (b2c (follow_wire d b)) ≠ 3 := by
  have hne : b2c b ≠ b2c (follow_wire d b) := by
    intro hEq
    exact follow_wire_ne d b (hinj hEq.symm)
  refine ⟨hne, ?_⟩
  rcases wire_class_cases (b2c b) (b2c (follow_wire d b)) hne with hk | hk | hk <;>
    omega

/-- C10 witness: the 3-board torus of one threeboard with an explicit
injective slot assignment; the North wire of board (0,0,0). -/
theorem wire_cabinet_stats_assert_unreachable_witness :
    slot_wit ((0, 0, 0) : Board 1 1) ≠ slot_wit (follow_wire .north (0, 0, 0)) ∧
    wire_class (slot_wit ((0, 0, 0) : Board 1 1))
      (slot_wit (follow_wire .north (0, 0, 0))) ≠ 3 :=
  wire_cabinet_stats_assert_unreachable slot_wit (by decide) .north (0, 0, 0)

/-! ### Wiring pattern theorems (C7) -/

theorem count_insert_same {A : Type} [DecidableEq A] (a : A) (k : ℕ) :
    count_insert [(a, k)] a = [(a, k + 1)] := by
  simp [count_insert]

theorem foldl_count_insert_all_eq {A : Type} [DecidableEq A] (a : A) :
    ∀ (l : List A) (k : ℕ), (∀ x ∈ l, x = a) →
      l.foldl count_insert [(a, k)] = [(a, k + l.length)] := by
  intro l
  induction l with
  | nil => simp
  | cons x rest ih =>
      intro k hall
      have hx : x = a := hall x (by simp)
      subst hx
      rw [List.foldl_cons, count_insert_same, ih (k + 1) (fun y hy => hall y (by simp [hy]))]
      norm_num
      omega

/-- A nonempty list of identical items has exactly one distinct-count entry,
carrying the full multiplicity. -/
theorem distinct_count_all_eq {A : Type} [DecidableEq A] (a : A) (l : List A)
    (hne : l ≠ []) (hall : ∀ x ∈ l, x = a) :
    distinct_count l = [(a, l.length)] := by
  obtain ⟨x, rest, rfl⟩ := List.exists_cons_of_ne_nil hne
  have hx : x = a := hall x (by simp)
  rw [hx, distinct_count, List.foldl_cons]
  have h0 : count_insert ([] : List (A × ℕ)) a = [(a, 1)] := by simp [count_insert]
  rw [h0, foldl_count_insert_all_eq a rest 1 (fun y hy => hall y (by simp [hy]))]
  simp
  omega

theorem add_to_group_uniform {K : Type} [DecidableEq K]
    (gs : List (K × Finset (Unit × CabinetCoord))) (k : K) (v : CabinetCoord)
    (hgs : ∀ g ∈ gs, g.2 = ({((), v)} : Finset (Unit × CabinetCoord))) :
    ∀ g ∈ add_to_group gs k (((), v) : Unit × CabinetCoord), g.2 = {((), v)} := by
  intro g hg
  rw [add_to_group] at hg
  split at hg
  · obtain ⟨g0, hg0, rfl⟩ := List.mem_map.mp hg
    by_cases hk : g0.1 = k
    · simp [hk, hgs g0 hg0]
    · simp [hk, hgs g0 hg0]
  · rcases List.mem_append.mp hg with hmem | hmem
    · exact hgs g hmem
    · simp at hmem
      rw [hmem]

theorem add_to_group_ne_nil {K E : Type} [DecidableEq K] [DecidableEq E]
    (gs : List (K × Finset (E × CabinetCoord))) (k : K) (v : E × CabinetCoord) :
    add_to_group gs k v ≠ [] := by
  rw [add_to_group]
  split
  · rename_i hany
    intro hmap
    rw [List.map_eq_nil_iff] at hmap
    subst hmap
    simp at hany
  · simp

theorem foldl_add_to_group_uniform {K : Type} [DecidableEq K]
    (key : CabinetCoord → K) (ek : CabinetCoord → Unit) (v : CabinetCoord) :
    ∀ (rel : List (CabinetCoord × CabinetCoord))
      (gs : List (K × Finset (Unit × CabinetCoord))),
      (∀ p ∈ rel, p.2 = v) →
      (∀ g ∈ gs, g.2 = ({((), v)} : Finset (Unit × CabinetCoord))) →
      ∀ g ∈ rel.foldl (fun gs cw => add_to_group gs (key cw.1) (ek cw.1, cw.2)) gs,
        g.2 = {((), v)} := by
  intro rel
  induction rel with
  | nil =>
      intro gs _ hgs
      simpa using hgs
  | cons p rest ih =>
      intro gs hall hgs
      rw [List.foldl_cons]
      have hp : p.2 = v := hall p (by simp)
      have hpair : (ek p.1, p.2) = (((), v) : Unit × CabinetCoord) := by
        rw [hp]
      rw [hpair]
      exact ih (add_to_group gs (key p.1) ((), v))
        (fun q hq => hall q (by simp [hq]))
        (add_to_group_uniform gs (key p.1) v hgs)

theorem foldl_add_to_group_ne_nil {K E : Type} [DecidableEq K] [DecidableEq E]
    (key : CabinetCoord → K) (ek : CabinetCoord → E) :
    ∀ (rel : List (CabinetCoord × CabinetCoord))
      (gs : List (K × Finset (E × CabinetCoord))), gs ≠ [] →
      rel.foldl (fun gs cw => add_to_group gs (key cw.1) (ek cw.1, cw.2)) gs ≠ [] := by
  intro rel
  induction rel with
  | nil =>
      intro gs hgs
      simpa using hgs
  | cons p rest ih =>
      intro gs _
      rw [List.foldl_cons]
      exact ih _ (add_to_group_ne_nil gs (key p.1) (ek p.1, p.2))

/-- C7: if every board of one rack has the same relative wire vector `v` for
a direction, then grouping the relative wires of those boards (as the driver
does on lines 544-547, one group per coordinate with a trivial element key)
and counting distinct `(element, relative-vector)` sets yields exactly one
distinct pattern for that rack and direction. -/
theorem relative_wire_patterns_uniform_rack {B : Type} [DecidableEq B]
    (boards : List (B × CabinetCoord)) (fw : B → B) (v : CabinetCoord)
    (c0 r0 : ℤ) (hne : boards ≠ [])
    (hrack : ∀ bc ∈ boards, bc.2.1 = c0 ∧ bc.2.2.1 = r0)
    (hv : ∀ bc ∈ boards, dict_lookup boards (fw bc.1) - bc.2 = v) :
    (distinct_count ((group_relative_wires (get_relative_wires boards fw)
        (fun c => c) (fun _ => ())).map Prod.snd)).length = 1 := by
  have hallrel : ∀ p ∈ get_relative_wires boards fw, p.2 = v := by
    intro p hp
    obtain ⟨bc, hbc, rfl⟩ := List.mem_map.mp hp
    exact hv bc hbc
  have hrelne : get_relative_wires boards fw ≠ [] := by
    rw [get_relative_wires]
    simpa using hne
  have huniform : ∀ g ∈ group_relative_wires (get_relative_wires boards fw)
      (fun c => c) (fun _ => ()), g.2 = ({((), v)} : Finset (Unit × CabinetCoord)) :=
    foldl_add_to_group_uniform (fun c => c) (fun _ => ()) v
      (get_relative_wires boards fw) [] hallrel (by simp)
  have hgrne : group_relative_wires (get_relative_wires boards fw)
      (fun c => c) (fun _ => ()) ≠ [] := by
    obtain ⟨p, rest, hrw⟩ := List.exists_cons_of_ne_nil hrelne
    rw [group_relative_wires, hrw, List.foldl_cons]
    exact foldl_add_to_group_ne_nil (fun c => c) (fun _ => ()) rest _
      (add_to_group_ne_nil [] p.1 ((), p.2))
  have hvals : ∀ s ∈ (group_relative_wires (get_relative_wires boards fw)
      (fun c => c) (fun _ => ())).map Prod.snd,
      s = ({((), v)} : Finset (Unit × CabinetCoord)) := by
    intro s hs
    obtain ⟨g, hg, rfl⟩ := List.mem_map.mp hs
    exact huniform g hg
  have hvne : (group_relative_wires (get_relative_wires boards fw)
      (fun c => c) (fun _ => ())).map Prod.snd ≠ [] := by
    simpa using hgrne
  rw [distinct_count_all_eq _ _ hvne hvals]
  simp

/-- C7 witness: a two-board rack (cabinet 0, rack 0, slots 0 and 1) in which
every board has the identical relative wire vector (0,0,0). -/
theorem relative_wire_patterns_uniform_rack_witness :
    (distinct_count ((group_relative_wires
      (get_relative_wires [(false, ((0, 0, 0) : CabinetCoord)), (true, (0, 0, 1))]
        (fun b => b))
      (fun c => c) (fun _ => ())).map Prod.snd)).length = 1 :=
  relative_wire_patterns_uniform_rack
    [(false, (0, 0, 0)), (true, (0, 0, 1))] (fun b => b) (0, 0, 0) 0 0
    (by simp) (by decide) (by decide)

/-! ### Pipeline dataflow theorem (C8) -/

/-- C8: the functional pipeline chain of driver lines 71-106.  The final
physical placement is exactly
`cabinet_to_physical(cabinetise(fold(compress(rhombus_to_rect(hex_to_cartesian(torus))))))`:
`fold` is applied to `comp_torus` (not to the `space_folds` output) and
`cabinetise` to the `fold` output, so no `space_folds` variant
(`fold_spaced_torus`, `folded_spaced_torus`, `folded_cabinet_spaced_torus`)
feeds any functional stage. -/
theorem pipeline_functional_chain (w h fx fy nr ns : ℕ)
    (cab_step slot_step rack_step : ℚ) :
    phys_torus w h fx fy nr ns cab_step slot_step rack_step =
      (create_torus w h).map
        (fun bc => (bc.1, cabinet_to_physical cab_step slot_step rack_step
          (cabinetise h nr ns
            (fold fx fy (3 * (w : ℤ) / fx) ((h : ℤ) / fy)
              (compress 1 2 (rhombus_to_rect w (hex_to_cartesian bc.2))))))) ∧
    folded_torus w h fx fy =
      (comp_torus w h).map
        (fun bc => (bc.1, fold fx fy (3 * (w : ℤ) / fx) ((h : ℤ) / fy) bc.2)) ∧
    cabinet_torus w h fx fy nr ns =
      (folded_torus w h fx fy).map (fun bc => (bc.1, cabinetise h nr ns bc.2)) := by
  refine ⟨?_, rfl, rfl⟩
  simp only [phys_torus, cabinet_torus, folded_torus, comp_torus, rect_torus, cart_torus,
    List.map_map, Function.comp]
  rfl

/-! ### Pipeline bijection theorems (C2) -/

theorem board_eq_of_vals {w h : ℕ} [NeZero w] [NeZero h] (b1 b2 : Board w h)
    (h1 : b1.1.val = b2.1.val) (h2 : b1.2.1.val = b2.2.1.val)
    (h3 : b1.2.2.val = b2.2.2.val) : b1 = b2 := by
  obtain ⟨x1, y1, z1⟩ := b1
  obtain ⟨x2, y2, z2⟩ := b2
  have e1 : x1 = x2 := ZMod.val_injective w h1
  have e2 : y1 = y2 := ZMod.val_injective h h2
  have e3 : z1 = z2 := ZMod.val_injective 3 h3
  rw [e1, e2, e3]

/-- Stage 1 is injective: the skewed column determines `z` (mod 3) and
`X - Y`, the wavy height determines `Y`. -/
theorem hex_to_cartesian_injective {w h : ℕ} [NeZero w] [NeZero h] :
    Function.Injective (hex_to_cartesian (w := w) (h := h)) := by
  intro b1 b2 heq
  simp only [hex_to_cartesian, Prod.mk.injEq] at heq
  obtain ⟨heq1, heq2⟩ := heq
  have hb1 : (b1.1.val : ℤ) < w := by exact_mod_cast ZMod.val_lt b1.1
  have hb2 : (b1.2.1.val : ℤ) < h := by exact_mod_cast ZMod.val_lt b1.2.1
  have hb3 : (b1.2.2.val : ℤ) < 3 := by exact_mod_cast ZMod.val_lt b1.2.2
  have hc1 : (b2.1.val : ℤ) < w := by exact_mod_cast ZMod.val_lt b2.1
  have hc2 : (b2.2.1.val : ℤ) < h := by exact_mod_cast ZMod.val_lt b2.2.1
  have hc3 : (b2.2.2.val : ℤ) < 3 := by exact_mod_cast ZMod.val_lt b2.2.2
  exact board_eq_of_vals b1 b2 (by omega) (by omega) (by omega)

/-- Two integers congruent modulo `M` and less than `M` apart are equal. -/
theorem int_window_eq (M a b : ℤ) (hM : 0 < M) (hdvd : M ∣ a - b)
    (h1 : a - b < M) (h2 : b - a < M) : a = b := by
  obtain ⟨k, hk⟩ := hdvd
  rcases lt_trichotomy k 0 with hk0 | hk0 | hk0
  · have hle : k ≤ -1 := by omega
    have hmul : M * k ≤ M * (-1) := by
      apply mul_le_mul_of_nonneg_left hle hM.le
    have hm1 : M * (-1) = -M := by ring
    omega
  · rw [hk0, mul_zero] at hk
    omega
  · have hle : 1 ≤ k := by omega
    have hmul : M * 1 ≤ M * k := by
      apply mul_le_mul_of_nonneg_left hle hM.le
    have hm1 : M * 1 = M := by ring
    omega

/-- Stages 1-2 are injective: wrapping the columns left of the seam into
`[0, 3w)` keeps distinct boards at distinct coordinates, for every torus
shape. -/
theorem rect_composite_injective {w h : ℕ} [NeZero w] [NeZero h] :
    Function.Injective
      (fun b : Board w h => rhombus_to_rect w (hex_to_cartesian b)) := by
  intro b1 b2 heq
  simp only [rhombus_to_rect, hex_to_cartesian, Prod.mk.injEq] at heq
  obtain ⟨heq1, heq2⟩ := heq
  have hb1 : (b1.1.val : ℤ) < w := by exact_mod_cast ZMod.val_lt b1.1
  have hb2 : (b1.2.1.val : ℤ) < h := by exact_mod_cast ZMod.val_lt b1.2.1
  have hb3 : (b1.2.2.val : ℤ) < 3 := by exact_mod_cast ZMod.val_lt b1.2.2
  have hc1 : (b2.1.val : ℤ) < w := by exact_mod_cast ZMod.val_lt b2.1
  have hc2 : (b2.2.1.val : ℤ) < h := by exact_mod_cast ZMod.val_lt b2.2.1
  have hc3 : (b2.2.2.val : ℤ) < 3 := by exact_mod_cast ZMod.val_lt b2.2.2
  have hwpos : (0 : ℤ) < 3 * (w : ℤ) := by
    have : 0 < w := Nat.pos_of_ne_zero (NeZero.ne w)
    have hcast : (0 : ℤ) < (w : ℤ) := by exact_mod_cast this
    omega
  set e1 : ℤ := 3 * ((b1.1.val : ℤ) - (b1.2.1.val : ℤ)) + (b1.2.2.val : ℤ) with he1
  set e2 : ℤ := 3 * ((b2.1.val : ℤ) - (b2.2.1.val : ℤ)) + (b2.2.2.val : ℤ) with he2
  have hB : (b1.2.1.val : ℤ) = (b2.2.1.val : ℤ) := by omega
  have d1 := Int.ediv_add_emod e1 (3 * (w : ℤ))
  have d2 := Int.ediv_add_emod e2 (3 * (w : ℤ))
  have m1 : 0 ≤ e1 % (3 * (w : ℤ)) := Int.emod_nonneg e1 hwpos.ne'
  have m1b : e1 % (3 * (w : ℤ)) < 3 * (w : ℤ) := Int.emod_lt_of_pos e1 hwpos
  have m2 : 0 ≤ e2 % (3 * (w : ℤ)) := Int.emod_nonneg e2 hwpos.ne'
  have m2b : e2 % (3 * (w : ℤ)) < 3 * (w : ℤ) := Int.emod_lt_of_pos e2 hwpos
  have win1 : e1 - e2 < 3 * (w : ℤ) := by omega
  have win2 : e2 - e1 < 3 * (w : ℤ) := by omega
  have hee : e1 = e2 := by
    rcases lt_or_ge e1 0 with hn1 | hn1 <;> rcases lt_or_ge e2 0 with hn2 | hn2
    · rw [if_pos hn1, if_pos hn2] at heq1
      refine int_window_eq (3 * (w : ℤ)) e1 e2 hwpos
        ⟨e1 / (3 * (w : ℤ)) - e2 / (3 * (w : ℤ)), ?_⟩ win1 win2
      have hr : 3 * (w : ℤ) * (e1 / (3 * (w : ℤ)) - e2 / (3 * (w : ℤ))) =
          3 * (w : ℤ) * (e1 / (3 * (w : ℤ))) - 3 * (w : ℤ) * (e2 / (3 * (w : ℤ))) := by
        ring
      omega
    · rw [if_pos hn1, if_neg (not_lt.mpr hn2)] at heq1
      refine int_window_eq (3 * (w : ℤ)) e1 e2 hwpos
        ⟨e1 / (3 * (w : ℤ)), ?_⟩ win1 win2
      omega
    · rw [if_neg (not_lt.mpr hn1), if_pos hn2] at heq1
      refine int_window_eq (3 * (w : ℤ)) e1 e2 hwpos
        ⟨-(e2 / (3 * (w : ℤ))), ?_⟩ win1 win2
      have hr : 3 * (w : ℤ) * -(e2 / (3 * (w : ℤ))) =
          -(3 * (w : ℤ) * (e2 / (3 * (w : ℤ)))) := by
        ring
      omega
    · rw [if_neg (not_lt.mpr hn1), if_neg (not_lt.mpr hn2)] at heq1
      exact heq1
  exact board_eq_of_vals b1 b2 (by omega) (by omega) (by omega)

/-- Stages 1-3 are injective: halving the wavy axis recovers `Y` exactly,
for every torus shape. -/
theorem comp_composite_injective {w h : ℕ} [NeZero w] [NeZero h] :
    Function.Injective
      (fun b : Board w h => compress 1 2 (rhombus_to_rect w (hex_to_cartesian b))) := by
  intro b1 b2 heq
  simp only [compress, rhombus_to_rect, hex_to_cartesian, Prod.mk.injEq] at heq
  obtain ⟨heq1, heq2⟩ := heq
  have hb1 : (b1.1.val : ℤ) < w := by exact_mod_cast ZMod.val_lt b1.1
  have hb2 : (b1.2.1.val : ℤ) < h := by exact_mod_cast ZMod.val_lt b1.2.1
  have hb3 : (b1.2.2.val : ℤ) < 3 := by exact_mod_cast ZMod.val_lt b1.2.2
  have hc1 : (b2.1.val : ℤ) < w := by exact_mod_cast ZMod.val_lt b2.1
  have hc2 : (b2.2.1.val : ℤ) < h := by exact_mod_cast ZMod.val_lt b2.2.1
  have hc3 : (b2.2.2.val : ℤ) < 3 := by exact_mod_cast ZMod.val_lt b2.2.2
  have hwpos : (0 : ℤ) < 3 * (w : ℤ) := by
    have : 0 < w := Nat.pos_of_ne_zero (NeZero.ne w)
    have hcast : (0 : ℤ) < (w : ℤ) := by exact_mod_cast this
    omega
  set e1 : ℤ := 3 * ((b1.1.val : ℤ) - (b1.2.1.val : ℤ)) + (b1.2.2.val : ℤ) with he1
  set e2 : ℤ := 3 * ((b2.1.val : ℤ) - (b2.2.1.val : ℤ)) + (b2.2.2.val : ℤ) with he2
  have hB : (b1.2.1.val : ℤ) = (b2.2.1.val : ℤ) := by omega
  have d1 := Int.ediv_add_emod e1 (3 * (w : ℤ))
  have d2 := Int.ediv_add_emod e2 (3 * (w : ℤ))
  have m1 : 0 ≤ e1 % (3 * (w : ℤ)) := Int.emod_nonneg e1 hwpos.ne'
  have m1b : e1 % (3 * (w : ℤ)) < 3 * (w : ℤ) := Int.emod_lt_of_pos e1 hwpos
  have m2 : 0 ≤ e2 % (3 * (w : ℤ)) := Int.emod_nonneg e2 hwpos.ne'
  have m2b : e2 % (3 * (w : ℤ)) < 3 * (w : ℤ) := Int.emod_lt_of_pos e2 hwpos
  have win1 : e1 - e2 < 3 * (w : ℤ) := by omega
  have win2 : e2 - e1 < 3 * (w : ℤ) := by omega
  have hee : e1 = e2 := by
    rcases lt_or_ge e1 0 with hn1 | hn1 <;> rcases lt_or_ge e2 0 with hn2 | hn2
    · rw [if_pos hn1, if_pos hn2] at heq1
      refine int_window_eq (3 * (w : ℤ)) e1 e2 hwpos
        ⟨e1 / (3 * (w : ℤ)) - e2 / (3 * (w : ℤ)), ?_⟩ win1 win2
      have hr : 3 * (w : ℤ) * (e1 / (3 * (w : ℤ)) - e2 / (3 * (w : ℤ))) =
          3 * (w : ℤ) * (e1 / (3 * (w : ℤ))) - 3 * (w : ℤ) * (e2 / (3 * (w : ℤ))) := by
        ring
      omega
    · rw [if_pos hn1, if_neg (not_lt.mpr hn2)] at heq1
      refine int_window_eq (3 * (w : ℤ)) e1 e2 hwpos
        ⟨e1 / (3 * (w : ℤ)), ?_⟩ win1 win2
      omega
    · rw [if_neg (not_lt.mpr hn1), if_pos hn2] at heq1
      refine int_window_eq (3 * (w : ℤ)) e1 e2 hwpos
        ⟨-(e2 / (3 * (w : ℤ))), ?_⟩ win1 win2
      have hr : 3 * (w : ℤ) * -(e2 / (3 * (w : ℤ))) =
          -(3 * (w : ℤ) * (e2 / (3 * (w : ℤ)))) := by
        ring
      omega
    · rw [if_neg (not_lt.mpr hn1), if_neg (not_lt.mpr hn2)] at heq1
      omega
  exact board_eq_of_vals b1 b2 (by omega) (by omega) (by omega)

/-- The compressed coordinate of every board lies in the full
`[0, 3w) x [0, h)` grid, for every torus shape. -/
theorem comp_composite_in_box {w h : ℕ} [NeZero w] [NeZero h] (b : Board w h) :
    0 ≤ (compress 1 2 (rhombus_to_rect w (hex_to_cartesian b))).1 ∧
    (compress 1 2 (rhombus_to_rect w (hex_to_cartesian b))).1 < 3 * w ∧
    0 ≤ (compress 1 2 (rhombus_to_rect w (hex_to_cartesian b))).2 ∧
    (compress 1 2 (rhombus_to_rect w (hex_to_cartesian b))).2 < h := by
  simp only [compress, rhombus_to_rect, hex_to_cartesian]
  have hb1 : (b.1.val : ℤ) < w := by exact_mod_cast ZMod.val_lt b.1
  have hb2 : (b.2.1.val : ℤ) < h := by exact_mod_cast ZMod.val_lt b.2.1
  have hb3 : (b.2.2.val : ℤ) < 3 := by exact_mod_cast ZMod.val_lt b.2.2
  have hwpos : (0 : ℤ) < 3 * (w : ℤ) := by
    have : 0 < w := Nat.pos_of_ne_zero (NeZero.ne w)
    have hcast : (0 : ℤ) < (w : ℤ) := by exact_mod_cast this
    omega
  set e : ℤ := 3 * ((b.1.val : ℤ) - (b.2.1.val : ℤ)) + (b.2.2.val : ℤ) with he
  have m1 : 0 ≤ e % (3 * (w : ℤ)) := Int.emod_nonneg e hwpos.ne'
  have m1b : e % (3 * (w : ℤ)) < 3 * (w : ℤ) := Int.emod_lt_of_pos e hwpos
  rcases lt_or_ge e 0 with hneg | hneg <;>
    [rw [if_pos hneg]; rw [if_neg (not_lt.mpr hneg)]] <;>
    refine ⟨by omega, by omega, by omega, by omega⟩

/-- One folded axis is injective on `[0, size * count)`. -/
theorem fold_axis_injOn (f s x1 x2 : ℤ) (hf : 0 < f) (hs : 0 < s)
    (hx1 : 0 ≤ x1) (hx1b : x1 < s * f) (hx2 : 0 ≤ x2) (hx2b : x2 < s * f)
    (heq : fold_axis f s x1 = fold_axis f s x2) : x1 = x2 := by
  simp only [fold_axis] at heq
  have hs1 : 0 ≤ x1 / s := Int.ediv_nonneg hx1 hs.le
  have hs1b : x1 / s < f := by
    apply Int.ediv_lt_of_lt_mul hs
    rw [mul_comm]
    exact hx1b
  have hs2 : 0 ≤ x2 / s := Int.ediv_nonneg hx2 hs.le
  have hs2b : x2 / s < f := by
    apply Int.ediv_lt_of_lt_mul hs
    rw [mul_comm]
    exact hx2b
  have hp1 : 0 ≤ x1 % s := Int.emod_nonneg x1 hs.ne'
  have hp1b : x1 % s < s := Int.emod_lt_of_pos x1 hs
  have hp2 : 0 ≤ x2 % s := Int.emod_nonneg x2 hs.ne'
  have hp2b : x2 % s < s := Int.emod_lt_of_pos x2 hs
  have hmod1 : ((if x1 / s % 2 = 1 then s - 1 - x1 % s else x1 % s) * f + x1 / s) % f =
      x1 / s := by
    rw [add_comm, Int.add_mul_emod_self]
    exact Int.emod_eq_of_lt hs1 hs1b
  have hmod2 : ((if x2 / s % 2 = 1 then s - 1 - x2 % s else x2 % s) * f + x2 / s) % f =
      x2 / s := by
    rw [add_comm, Int.add_mul_emod_self]
    exact Int.emod_eq_of_lt hs2 hs2b
  have hsheet : x1 / s = x2 / s := by
    rw [← hmod1, ← hmod2, heq]
  rw [hsheet] at heq
  have hq : (if x2 / s % 2 = 1 then s - 1 - x1 % s else x1 % s) =
      (if x2 / s % 2 = 1 then s - 1 - x2 % s else x2 % s) :=
    mul_right_cancel₀ hf.ne' (add_right_cancel heq)
  have hdm1 := Int.ediv_add_emod x1 s
  have hdm2 := Int.ediv_add_emod x2 s
  have hmul : s * (x1 / s) = s * (x2 / s) := by
    rw [hsheet]
  by_cases hpar : x2 / s % 2 = 1
  · rw [if_pos hpar] at hq
    omega
  · rw [if_neg hpar] at hq
    omega

/-- One folded axis stays inside `[0, size * count)`. -/
theorem fold_axis_in_range (f s x : ℤ) (hf : 0 < f) (hs : 0 < s)
    (hx : 0 ≤ x) (hxb : x < s * f) :
    0 ≤ fold_axis f s x ∧ fold_axis f s x < s * f := by
  simp only [fold_axis]
  have hs1 : 0 ≤ x / s := Int.ediv_nonneg hx hs.le
  have hs1b : x / s < f := by
    apply Int.ediv_lt_of_lt_mul hs
    rw [mul_comm]
    exact hxb
  have hp1 : 0 ≤ x % s := Int.emod_nonneg x hs.ne'
  have hp1b : x % s < s := Int.emod_lt_of_pos x hs
  have hq : 0 ≤ (if x / s % 2 = 1 then s - 1 - x % s else x % s) ∧
      (if x / s % 2 = 1 then s - 1 - x % s else x % s) ≤ s - 1 := by
    split <;> omega
  constructor
  · have := mul_nonneg hq.1 hf.le
    omega
  · have h1 : (if x / s % 2 = 1 then s - 1 - x % s else x % s) * f ≤ (s - 1) * f :=
      mul_le_mul_of_nonneg_right hq.2 hf.le
    have h2 : (s - 1) * f = s * f - f := by ring
    omega

theorem sheet_size_mul_x (w fx : ℕ) (hfx : 0 < fx) (hdx : fx ∣ 3 * w) :
    3 * (w : ℤ) / (fx : ℤ) * (fx : ℤ) = 3 * (w : ℤ) := by
  have hdvd : (fx : ℤ) ∣ 3 * (w : ℤ) := by
    have : ((3 * w : ℕ) : ℤ) = 3 * (w : ℤ) := by push_cast; ring
    rw [← this]
    exact_mod_cast hdx
  exact Int.ediv_mul_cancel hdvd

theorem sheet_size_mul_y (h fy : ℕ) (hfy : 0 < fy) (hdy : fy ∣ h) :
    (h : ℤ) / (fy : ℤ) * (fy : ℤ) = (h : ℤ) :=
  Int.ediv_mul_cancel (by exact_mod_cast hdy)

theorem sheet_size_pos_x (w fx : ℕ) (hw : 0 < w) (hfx : 0 < fx) (hdx : fx ∣ 3 * w) :
    0 < 3 * (w : ℤ) / (fx : ℤ) := by
  rcases hdx with ⟨k, hk⟩
  have hkpos : 0 < k := by
    rcases Nat.eq_zero_or_pos k with h0 | h0
    · rw [h0, Nat.mul_zero] at hk
      omega
    · exact h0
  have : 3 * (w : ℤ) = (fx : ℤ) * (k : ℤ) := by exact_mod_cast hk
  rw [this, Int.mul_ediv_cancel_left]
  · exact_mod_cast hkpos
  · exact_mod_cast hfx.ne'

theorem sheet_size_pos_y (h fy : ℕ) (hh : 0 < h) (hfy : 0 < fy) (hdy : fy ∣ h) :
    0 < (h : ℤ) / (fy : ℤ) := by
  rcases hdy with ⟨k, hk⟩
  have hkpos : 0 < k := by
    rcases Nat.eq_zero_or_pos k with h0 | h0
    · rw [h0, Nat.mul_zero] at hk
      omega
    · exact h0
  have : (h : ℤ) = (fy : ℤ) * (k : ℤ) := by exact_mod_cast hk
  rw [this, Int.mul_ediv_cancel_left]
  · exact_mod_cast hkpos
  · exact_mod_cast hfy.ne'

/-- Stages 1-5 are injective: the accordion fold interleaves each full axis
bijectively. -/
theorem folded_composite_injective {w h : ℕ} [NeZero w] [NeZero h]
    (fx fy : ℕ) (hfx : 0 < fx) (hfy : 0 < fy)
    (hdx : fx ∣ 3 * w) (hdy : fy ∣ h) :
    Function.Injective (fun b : Board w h =>
      fold fx fy (3 * (w : ℤ) / fx) ((h : ℤ) / fy)
        (compress 1 2 (rhombus_to_rect w (hex_to_cartesian b)))) := by
  have hw : 0 < w := Nat.pos_of_ne_zero (NeZero.ne w)
  have hh : 0 < h := Nat.pos_of_ne_zero (NeZero.ne h)
  intro b1 b2 heq
  simp only [fold, Prod.mk.injEq] at heq
  obtain ⟨heq1, heq2⟩ := heq
  obtain ⟨hbx0, hbx1, hby0, hby1⟩ := comp_composite_in_box b1
  obtain ⟨hcx0, hcx1, hcy0, hcy1⟩ := comp_composite_in_box b2
  have hmx := sheet_size_mul_x w fx hfx hdx
  have hmy := sheet_size_mul_y h fy hfy hdy
  have hpx := sheet_size_pos_x w fx hw hfx hdx
  have hpy := sheet_size_pos_y h fy hh hfy hdy
  have hx : (compress 1 2 (rhombus_to_rect w (hex_to_cartesian b1))).1 =
      (compress 1 2 (rhombus_to_rect w (hex_to_cartesian b2))).1 := by
    apply fold_axis_injOn (fx : ℤ) (3 * (w : ℤ) / fx) _ _ (by exact_mod_cast hfx) hpx
      hbx0 (by rw [hmx]; exact hbx1) hcx0 (by rw [hmx]; exact hcx1) heq1
  have hy : (compress 1 2 (rhombus_to_rect w (hex_to_cartesian b1))).2 =
      (compress 1 2 (rhombus_to_rect w (hex_to_cartesian b2))).2 := by
    apply fold_axis_injOn (fy : ℤ) ((h : ℤ) / fy) _ _ (by exact_mod_cast hfy) hpy
      hby0 (by rw [hmy]; exact hby1) hcy0 (by rw [hmy]; exact hcy1) heq2
  exact comp_composite_injective (Prod.ext hx hy)

/-- The folded coordinate of every board stays in the `[0, 3w) x [0, h)`
grid. -/
theorem folded_composite_in_box {w h : ℕ} [NeZero w] [NeZero h]
    (fx fy : ℕ) (hfx : 0 < fx) (hfy : 0 < fy)
    (hdx : fx ∣ 3 * w) (hdy : fy ∣ h) (b : Board w h) :
    0 ≤ (fold fx fy (3 * (w : ℤ) / fx) ((h : ℤ) / fy)
      (compress 1 2 (rhombus_to_rect w (hex_to_cartesian b)))).1 ∧
    (fold fx fy (3 * (w : ℤ) / fx) ((h : ℤ) / fy)
      (compress 1 2 (rhombus_to_rect w (hex_to_cartesian b)))).1 < 3 * w ∧
    0 ≤ (fold fx fy (3 * (w : ℤ) / fx) ((h : ℤ) / fy)
      (compress 1 2 (rhombus_to_rect w (hex_to_cartesian b)))).2 ∧
    (fold fx fy (3 * (w : ℤ) / fx) ((h : ℤ) / fy)
      (compress 1 2 (rhombus_to_rect w (hex_to_cartesian b)))).2 < h := by
  have hw : 0 < w := Nat.pos_of_ne_zero (NeZero.ne w)
  have hh : 0 < h := Nat.pos_of_ne_zero (NeZero.ne h)
  obtain ⟨hbx0, hbx1, hby0, hby1⟩ := comp_composite_in_box b
  have hmx := sheet_size_mul_x w fx hfx hdx
  have hmy := sheet_size_mul_y h fy hfy hdy
  have hpx := sheet_size_pos_x w fx hw hfx hdx
  have hpy := sheet_size_pos_y h fy hh hfy hdy
  simp only [fold]
  obtain ⟨ha, hb⟩ := fold_axis_in_range (fx : ℤ) (3 * (w : ℤ) / fx) _
    (by exact_mod_cast hfx) hpx hbx0 (by rw [hmx]; exact hbx1)
  obtain ⟨hc, hd⟩ := fold_axis_in_range (fy : ℤ) ((h : ℤ) / fy) _
    (by exact_mod_cast hfy) hpy hby0 (by rw [hmy]; exact hby1)
  rw [hmx] at hb
  rw [hmy] at hd
  exact ⟨ha, hb, hc, hd⟩

/-- `cabinetise` is injective on the `[0, 3w) x [0, H)` grid: the linear
index is recovered from the triple, and the grid cell from the index. -/
theorem cabinetise_injOn (H nr ns : ℤ) (hH : 0 < H) (c1 c2 : ℤ × ℤ)
    (h1 : 0 ≤ c1.2) (h1b : c1.2 < H) (h2 : 0 ≤ c2.2) (h2b : c2.2 < H)
    (heq : cabinetise H nr ns c1 = cabinetise H nr ns c2) : c1 = c2 := by
  simp only [cabinetise, Prod.mk.injEq] at heq
  obtain ⟨hcc, hrr, hss⟩ := heq
  have hi : c1.1 * H + c1.2 = c2.1 * H + c2.2 := by
    have i1 := Int.ediv_add_emod (c1.1 * H + c1.2) ns
    have i2 := Int.ediv_add_emod (c2.1 * H + c2.2) ns
    have j1 := Int.ediv_add_emod ((c1.1 * H + c1.2) / ns) nr
    have j2 := Int.ediv_add_emod ((c2.1 * H + c2.2) / ns) nr
    have hdiv : (c1.1 * H + c1.2) / ns = (c2.1 * H + c2.2) / ns := by
      rw [← j1, ← j2, hcc, hrr]
    rw [← i1, ← i2, hdiv, hss]
  have hx : c1.1 = c2.1 := by
    have d1 : (c1.1 * H + c1.2) / H = c1.1 := by
      rw [add_comm, Int.add_mul_ediv_right _ _ hH.ne', Int.ediv_eq_zero_of_lt h1 h1b,
        zero_add]
    have d2 : (c2.1 * H + c2.2) / H = c2.1 := by
      rw [add_comm, Int.add_mul_ediv_right _ _ hH.ne', Int.ediv_eq_zero_of_lt h2 h2b,
        zero_add]
    rw [← d1, ← d2, hi]
  have hy : c1.2 = c2.2 := by
    have := hi
    rw [hx] at this
    omega
  exact Prod.ext hx hy

/-- Bounds of the cabinetise output on nonnegative grid cells. -/
theorem cabinetise_bounds (H nr ns : ℤ) (hnr : 0 < nr) (hns : 0 < ns)
    (c : ℤ × ℤ) (hx : 0 ≤ c.1) (hy : 0 ≤ c.2) (hH : 0 ≤ H) :
    0 ≤ (cabinetise H nr ns c).1 ∧
    0 ≤ (cabinetise H nr ns c).2.1 ∧ (cabinetise H nr ns c).2.1 < nr ∧
    0 ≤ (cabinetise H nr ns c).2.2 ∧ (cabinetise H nr ns c).2.2 < ns := by
  simp only [cabinetise]
  have hi : 0 ≤ c.1 * H + c.2 := by
    have := mul_nonneg hx hH
    omega
  refine ⟨Int.ediv_nonneg (Int.ediv_nonneg hi hns.le) hnr.le,
    Int.emod_nonneg _ hnr.ne', Int.emod_lt_of_pos _ hnr,
    Int.emod_nonneg _ hns.ne', Int.emod_lt_of_pos _ hns⟩

/-- `cabinet_to_physical` is injective on triples with nonnegative cabinet,
slots below `ns`, when the horizontal cabinet step clears the `ns` slot
steps. -/
theorem cabinet_to_physical_injOn (cs ss rs : ℚ) (ns : ℤ)
    (hss : 0 < ss) (hrs : 0 < rs) (hcs : (ns : ℚ) * ss ≤ cs)
    (t1 t2 : CabinetCoord)
    (hc1 : 0 ≤ t1.1) (hs1 : 0 ≤ t1.2.2) (hs1b : t1.2.2 < ns)
    (hc2 : 0 ≤ t2.1) (hs2 : 0 ≤ t2.2.2) (hs2b : t2.2.2 < ns)
    (heq : cabinet_to_physical cs ss rs t1 = cabinet_to_physical cs ss rs t2) :
    t1 = t2 := by
  simp only [cabinet_to_physical, Prod.mk.injEq] at heq
  obtain ⟨hx, hy, -⟩ := heq
  have hnspos : 0 < ns := lt_of_le_of_lt hs1 hs1b
  have hcspos : (0 : ℚ) < cs := by
    have h1 : (0 : ℚ) < (ns : ℚ) * ss := by
      apply mul_pos _ hss
      exact_mod_cast hnspos
    linarith
  have hr : t1.2.1 = t2.2.1 := by
    have := mul_right_cancel₀ hrs.ne' hy
    exact_mod_cast this
  have hcab : t1.1 = t2.1 := by
    by_contra hne
    rcases lt_or_gt_of_ne hne with hlt | hgt
    · have h1 : (1 : ℚ) ≤ (t2.1 : ℚ) - (t1.1 : ℚ) := by
        have : t1.1 + 1 ≤ t2.1 := hlt
        have hc : ((t1.1 + 1 : ℤ) : ℚ) ≤ ((t2.1 : ℤ) : ℚ) := by exact_mod_cast this
        push_cast at hc
        linarith
      have key : ((t2.1 : ℚ) - (t1.1 : ℚ)) * cs = ((t1.2.2 : ℚ) - (t2.2.2 : ℚ)) * ss := by
        linear_combination -hx
      have hsb : ((t1.2.2 : ℚ) - (t2.2.2 : ℚ)) * ss ≤ ((ns : ℚ) - 1) * ss := by
        apply mul_le_mul_of_nonneg_right _ hss.le
        have ha : (t1.2.2 : ℚ) ≤ (ns : ℚ) - 1 := by
          have : t1.2.2 ≤ ns - 1 := by omega
          have hc : ((t1.2.2 : ℤ) : ℚ) ≤ ((ns - 1 : ℤ) : ℚ) := by exact_mod_cast this
          push_cast at hc
          linarith
        have hb : (0 : ℚ) ≤ (t2.2.2 : ℚ) := by exact_mod_cast hs2
        linarith
      have hlast : ((ns : ℚ) - 1) * ss < (ns : ℚ) * ss := by
        have : (ns : ℚ) * ss - ((ns : ℚ) - 1) * ss = ss := by ring
        linarith
      have hbig : cs ≤ ((t2.1 : ℚ) - (t1.1 : ℚ)) * cs :=
        le_mul_of_one_le_left hcspos.le h1
      linarith
    · have h1 : (1 : ℚ) ≤ (t1.1 : ℚ) - (t2.1 : ℚ) := by
        have : t2.1 + 1 ≤ t1.1 := hgt
        have hc : ((t2.1 + 1 : ℤ) : ℚ) ≤ ((t1.1 : ℤ) : ℚ) := by exact_mod_cast this
        push_cast at hc
        linarith
      have key : ((t1.1 : ℚ) - (t2.1 : ℚ)) * cs = ((t2.2.2 : ℚ) - (t1.2.2 : ℚ)) * ss := by
        linear_combination hx
      have hsb : ((t2.2.2 : ℚ) - (t1.2.2 : ℚ)) * ss ≤ ((ns : ℚ) - 1) * ss := by
        apply mul_le_mul_of_nonneg_right _ hss.le
        have ha : (t2.2.2 : ℚ) ≤ (ns : ℚ) - 1 := by
          have : t2.2.2 ≤ ns - 1 := by omega
          have hc : ((t2.2.2 : ℤ) : ℚ) ≤ ((ns - 1 : ℤ) : ℚ) := by exact_mod_cast this
          push_cast at hc
          linarith
        have hb : (0 : ℚ) ≤ (t1.2.2 : ℚ) := by exact_mod_cast hs1
        linarith
      have hlast : ((ns : ℚ) - 1) * ss < (ns : ℚ) * ss := by
        have : (ns : ℚ) * ss - ((ns : ℚ) - 1) * ss = ss := by ring
        linarith
      have hbig : cs ≤ ((t1.1 : ℚ) - (t2.1 : ℚ)) * cs :=
        le_mul_of_one_le_left hcspos.le h1
      linarith
  have hslot : t1.2.2 = t2.2.2 := by
    rw [hcab] at hx
    have hx2 : (t1.2.2 : ℚ) * ss = (t2.2.2 : ℚ) * ss := by linarith
    have := mul_right_cancel₀ hss.ne' hx2
    exact_mod_cast this
  obtain ⟨a1, a2, a3⟩ := t1
  obtain ⟨b1, b2, b3⟩ := t2
  simp only at hcab hr hslot
  rw [hcab, hr, hslot]

/-- C2: with a valid configuration (positive torus sides, fold counts
dividing the grid sides, positive rack/slot counts matching the board
count, nondegenerate physical steps)
the board-to-coordinate mapping after every pipeline stage is a bijection
onto its image: each stage map is injective, and the number of distinct
coordinates it produces equals the number of distinct boards, which is the
original board count `3 * w * h`. -/
theorem pipeline_stages_bijective (w h fx fy nc nr ns : ℕ) [NeZero w] [NeZero h]
    (hfx : 0 < fx) (hfy : 0 < fy) (hdx : fx ∣ 3 * w) (hdy : fy ∣ h)
    (hnr : 0 < nr) (hns : 0 < ns) (hcount : 3 * w * h = nc * nr * ns)
    (cs ss rs : ℚ) (hss : 0 < ss) (hrs : 0 < rs) (hcs : (ns : ℚ) * ss ≤ cs) :
    Fintype.card (Board w h) = 3 * w * h ∧
    Function.Injective (hex_to_cartesian (w := w) (h := h)) ∧
    (Finset.univ.image (hex_to_cartesian (w := w) (h := h))).card = 3 * w * h ∧
    Function.Injective
      (fun b : Board w h => rhombus_to_rect w (hex_to_cartesian b)) ∧
    (Finset.univ.image
      (fun b : Board w h => rhombus_to_rect w (hex_to_cartesian b))).card = 3 * w * h ∧
    Function.Injective
      (fun b : Board w h => compress 1 2 (rhombus_to_rect w (hex_to_cartesian b))) ∧
    (Finset.univ.image
      (fun b : Board w h =>
        compress 1 2 (rhombus_to_rect w (hex_to_cartesian b)))).card = 3 * w * h ∧
    Function.Injective
      (fun b : Board w h => fold fx fy (3 * (w : ℤ) / fx) ((h : ℤ) / fy)
        (compress 1 2 (rhombus_to_rect w (hex_to_cartesian b)))) ∧
    (Finset.univ.image
      (fun b : Board w h => fold fx fy (3 * (w : ℤ) / fx) ((h : ℤ) / fy)
        (compress 1 2 (rhombus_to_rect w (hex_to_cartesian b))))).card = 3 * w * h ∧
    Function.Injective
      (fun b : Board w h => cabinetise h nr ns
        (fold fx fy (3 * (w : ℤ) / fx) ((h : ℤ) / fy)
          (compress 1 2 (rhombus_to_rect w (hex_to_cartesian b))))) ∧
    (Finset.univ.image
      (fun b : Board w h => cabinetise h nr ns
        (fold fx fy (3 * (w : ℤ) / fx) ((h : ℤ) / fy)
          (compress 1 2 (rhombus_to_rect w (hex_to_cartesian b)))))).card = 3 * w * h ∧
    Function.Injective
      (fun b : Board w h => cabinet_to_physical cs ss rs (cabinetise h nr ns
        (fold fx fy (3 * (w : ℤ) / fx) ((h : ℤ) / fy)
          (compress 1 2 (rhombus_to_rect w (hex_to_cartesian b)))))) ∧
    (Finset.univ.image
      (fun b : Board w h => cabinet_to_physical cs ss rs (cabinetise h nr ns
        (fold fx fy (3 * (w : ℤ) / fx) ((h : ℤ) / fy)
          (compress 1 2 (rhombus_to_rect w (hex_to_cartesian b))))))).card =
      3 * w * h := by
  have hh : 0 < h := Nat.pos_of_ne_zero (NeZero.ne h)
  have hcard : Fintype.card (Board w h) = 3 * w * h := by
    simp [ZMod.card]
    ring
  have inj1 : Function.Injective (hex_to_cartesian (w := w) (h := h)) :=
    hex_to_cartesian_injective
  have inj2 : Function.Injective
      (fun b : Board w h => rhombus_to_rect w (hex_to_cartesian b)) :=
    rect_composite_injective
  have inj3 : Function.Injective
      (fun b : Board w h => compress 1 2 (rhombus_to_rect w (hex_to_cartesian b))) :=
    comp_composite_injective
  have inj4 : Function.Injective
      (fun b : Board w h => fold fx fy (3 * (w : ℤ) / fx) ((h : ℤ) / fy)
        (compress 1 2 (rhombus_to_rect w (hex_to_cartesian b)))) :=
    folded_composite_injective fx fy hfx hfy hdx hdy
  have inj5 : Function.Injective
      (fun b : Board w h => cabinetise h nr ns
        (fold fx fy (3 * (w : ℤ) / fx) ((h : ℤ) / fy)
          (compress 1 2 (rhombus_to_rect w (hex_to_cartesian b))))) := by
    intro b1 b2 heq
    apply inj4
    obtain ⟨ha1, hb1, hc1, hd1⟩ := folded_composite_in_box fx fy hfx hfy hdx hdy b1
    obtain ⟨ha2, hb2, hc2, hd2⟩ := folded_composite_in_box fx fy hfx hfy hdx hdy b2
    exact cabinetise_injOn (h : ℤ) nr ns (by exact_mod_cast hh) _ _ hc1 hd1 hc2 hd2 heq
  have inj6 : Function.Injective
      (fun b : Board w h => cabinet_to_physical cs ss rs (cabinetise h nr ns
        (fold fx fy (3 * (w : ℤ) / fx) ((h : ℤ) / fy)
          (compress 1 2 (rhombus_to_rect w (hex_to_cartesian b)))))) := by
    intro b1 b2 heq
    apply inj5
    obtain ⟨ha1, hb1, hc1, hd1⟩ := folded_composite_in_box fx fy hfx hfy hdx hdy b1
    obtain ⟨ha2, hb2, hc2, hd2⟩ := folded_composite_in_box fx fy hfx hfy hdx hdy b2
    obtain ⟨k1c, k1r0, k1r1, k1s0, k1s1⟩ := cabinetise_bounds (h : ℤ) nr ns
      (by exact_mod_cast hnr) (by exact_mod_cast hns) _ ha1 hc1 (by positivity)
    obtain ⟨k2c, k2r0, k2r1, k2s0, k2s1⟩ := cabinetise_bounds (h : ℤ) nr ns
      (by exact_mod_cast hnr) (by exact_mod_cast hns) _ ha2 hc2 (by positivity)
    exact cabinet_to_physical_injOn cs ss rs (ns : ℤ) hss hrs (by exact_mod_cast hcs)
      _ _ k1c k1s0 k1s1 k2c k2s0 k2s1 heq
  refine ⟨hcard, inj1, ?_, inj2, ?_, inj3, ?_, inj4, ?_, inj5, ?_, inj6, ?_⟩ <;>
    [rw [Finset.card_image_of_injective _ inj1, Finset.card_univ, hcard];
     rw [Finset.card_image_of_injective _ inj2, Finset.card_univ, hcard];
     rw [Finset.card_image_of_injective _ inj3, Finset.card_univ, hcard];
     rw [Finset.card_image_of_injective _ inj4, Finset.card_univ, hcard];
     rw [Finset.card_image_of_injective _ inj5, Finset.card_univ, hcard];
     rw [Finset.card_image_of_injective _ inj6, Finset.card_univ, hcard]]

/-- C2 witness: the tall 1 x 3 threeboard torus (9 boards, height exceeding
width), 3 x 3 folds, one cabinet of 3 racks of 3 slots, steps 3/1/1. -/
theorem pipeline_stages_bijective_witness :
    Fintype.card (Board 1 3) = 3 * 1 * 3 ∧
    Function.Injective (hex_to_cartesian (w := 1) (h := 3)) ∧
    (Finset.univ.image (hex_to_cartesian (w := 1) (h := 3))).card = 3 * 1 * 3 ∧
    Function.Injective
      (fun b : Board 1 3 => rhombus_to_rect 1 (hex_to_cartesian b)) ∧
    (Finset.univ.image
      (fun b : Board 1 3 => rhombus_to_rect 1 (hex_to_cartesian b))).card = 3 * 1 * 3 ∧
    Function.Injective
      (fun b : Board 1 3 => compress 1 2 (rhombus_to_rect 1 (hex_to_cartesian b))) ∧
    (Finset.univ.image
      (fun b : Board 1 3 =>
        compress 1 2 (rhombus_to_rect 1 (hex_to_cartesian b)))).card = 3 * 1 * 3 ∧
    Function.Injective
      (fun b : Board 1 3 => fold 3 3 (3 * (1 : ℤ) / 3) ((3 : ℤ) / 3)
        (compress 1 2 (rhombus_to_rect 1 (hex_to_cartesian b)))) ∧
    (Finset.univ.image
      (fun b : Board 1 3 => fold 3 3 (3 * (1 : ℤ) / 3) ((3 : ℤ) / 3)
        (compress 1 2 (rhombus_to_rect 1 (hex_to_cartesian b))))).card = 3 * 1 * 3 ∧
    Function.Injective
      (fun b : Board 1 3 => cabinetise 3 3 3
        (fold 3 3 (3 * (1 : ℤ) / 3) ((3 : ℤ) / 3)
          (compress 1 2 (rhombus_to_rect 1 (hex_to_cartesian b))))) ∧
    (Finset.univ.image
      (fun b : Board 1 3 => cabinetise 3 3 3
        (fold 3 3 (3 * (1 : ℤ) / 3) ((3 : ℤ) / 3)
          (compress 1 2 (rhombus_to_rect 1 (hex_to_cartesian b)))))).card = 3 * 1 * 3 ∧
    Function.Injective
      (fun b : Board 1 3 => cabinet_to_physical 3 1 1 (cabinetise 3 3 3
        (fold 3 3 (3 * (1 : ℤ) / 3) ((3 : ℤ) / 3)
          (compress 1 2 (rhombus_to_rect 1 (hex_to_cartesian b)))))) ∧
    (Finset.univ.image
      (fun b : Board 1 3 => cabinet_to_physical 3 1 1 (cabinetise 3 3 3
        (fold 3 3 (3 * (1 : ℤ) / 3) ((3 : ℤ) / 3)
          (compress 1 2 (rhombus_to_rect 1 (hex_to_cartesian b))))))).card =
      3 * 1 * 3 :=
  pipeline_stages_bijective 1 3 3 3 1 3 3 (by norm_num) (by norm_num)
    (by norm_num) (by norm_num) (by norm_num) (by norm_num) (by norm_num)
    3 1 1 (by norm_num) (by norm_num) (by norm_num)

/-! ### Wiring instruction theorems (C9) -/

theorem wire_end_le_of_not_le (s t : WireEnd) (h : ¬ wire_end_le s t) :
    wire_end_le t s := by
  obtain ⟨s1, s2, s3, s4⟩ := s
  obtain ⟨t1, t2, t3, t4⟩ := t
  simp only [wire_end_le] at *
  omega

theorem sort_pair_le (s t : WireEnd) :
    wire_end_le (sort_pair s t).1 (sort_pair s t).2 := by
  rw [sort_pair]
  split
  · rename_i hle
    exact hle
  · rename_i hnle
    exact wire_end_le_of_not_le s t hnle

theorem wire_le_trans (a b c : WireEnd × WireEnd)
    (hab : wire_le a b) (hbc : wire_le b c) : wire_le a c := by
  obtain ⟨⟨a1, a2, a3, a4⟩, ⟨a5, a6, a7, a8⟩⟩ := a
  obtain ⟨⟨b1, b2, b3, b4⟩, ⟨b5, b6, b7, b8⟩⟩ := b
  obtain ⟨⟨c1, c2, c3, c4⟩, ⟨c5, c6, c7, c8⟩⟩ := c
  simp only [wire_le, wire_end_le, Prod.mk.injEq] at *
  omega

theorem wire_le_total (a b : WireEnd × WireEnd) : wire_le a b ∨ wire_le b a := by
  obtain ⟨⟨a1, a2, a3, a4⟩, ⟨a5, a6, a7, a8⟩⟩ := a
  obtain ⟨⟨b1, b2, b3, b4⟩, ⟨b5, b6, b7, b8⟩⟩ := b
  simp only [wire_le, wire_end_le, Prod.mk.injEq]
  omega

theorem generate_wiring_list_sorted (wires : List (WireEnd × WireEnd)) :
    List.Pairwise wire_le (generate_wiring_list wires) := by
  have hs : List.Pairwise (fun a b => decide (wire_le a b) = true)
      (generate_wiring_list wires) := by
    apply List.sorted_mergeSort
    · intro a b c hab hbc
      simp only [decide_eq_true_eq] at *
      exact wire_le_trans a b c hab hbc
    · intro a b
      rcases wire_le_total a b with hd | hd <;> simp [hd]
  exact hs.imp (fun hab => by simpa using hab)

theorem wire_scope_spec (p : WireEnd × WireEnd) :
    (wire_scope p = 0 ∨ wire_scope p = 1 ∨ wire_scope p = 2) ∧
    (wire_scope p = 0 ↔ p.1.1 = p.2.1 ∧ p.1.2.1 = p.2.2.1) ∧
    (wire_scope p = 1 ↔ p.1.1 = p.2.1 ∧ p.1.2.1 ≠ p.2.2.1) ∧
    (wire_scope p = 2 ↔ p.1.1 ≠ p.2.1) := by
  unfold wire_scope
  by_cases h1 : p.1.1 = p.2.1 <;> by_cases h2 : p.1.2.1 = p.2.2.1 <;>
    simp [h1, h2]

/-- C9: every record built by `generate_wiring_instructions` is a sorted
(source end, target end) pair of `(cabinet, rack, slot, socket)` tuples; a
record is in the within-rack bucket of its own cabinet and rack iff cabinet
and rack of both ends match, in the within-cabinet bucket of its cabinet iff
only the cabinets match, and in the between-cabinets list otherwise (so each
record lands in exactly one scope group); and `generate_wiring_list` emits
every table sorted. -/
theorem generate_wiring_instructions_correct {B : Type} [DecidableEq B]
    (boards : List (B × CabinetCoord)) (socket_names : Direction → ℕ)
    (fw : Direction → B → B) :
    (∀ p ∈ instruction_wires boards socket_names fw, wire_end_le p.1 p.2) ∧
    (∀ p ∈ instruction_wires boards socket_names fw,
      (wire_scope p = 0 ∨ wire_scope p = 1 ∨ wire_scope p = 2) ∧
      (wire_scope p = 0 ↔ p.1.1 = p.2.1 ∧ p.1.2.1 = p.2.2.1) ∧
      (wire_scope p = 1 ↔ p.1.1 = p.2.1 ∧ p.1.2.1 ≠ p.2.2.1) ∧
      (wire_scope p = 2 ↔ p.1.1 ≠ p.2.1) ∧
      (p ∈ wires_between_slots (instruction_wires boards socket_names fw)
          p.1.1 p.1.2.1 ↔ wire_scope p = 0) ∧
      (p ∈ wires_between_racks (instruction_wires boards socket_names fw)
          p.1.1 ↔ wire_scope p = 1) ∧
      (p ∈ wires_between_cabinets (instruction_wires boards socket_names fw) ↔
          wire_scope p = 2)) ∧
    List.Pairwise wire_le
      (generate_wiring_list (instruction_wires boards socket_names fw)) := by
  refine ⟨?_, ?_, generate_wiring_list_sorted _⟩
  · intro p hp
    rw [instruction_wires] at hp
    obtain ⟨bc, hbc, hpmem⟩ := List.mem_flatMap.mp hp
    obtain ⟨d, hd, rfl⟩ := List.mem_map.mp hpmem
    exact sort_pair_le _ _
  · intro p hp
    obtain ⟨htr, h0, h1, h2⟩ := wire_scope_spec p
    refine ⟨htr, h0, h1, h2, ?_, ?_, ?_⟩
    · rw [wires_between_slots]
      simp [List.mem_filter, hp]
    · rw [wires_between_racks]
      simp [List.mem_filter, hp]
    · rw [wires_between_cabinets]
      simp [List.mem_filter, hp]

/-- C9 witness: two boards in slots (0,0,0) and (0,0,1) wired to each other,
one socket name per direction. -/
theorem generate_wiring_instructions_correct_witness :
    (∀ p ∈ instruction_wires [(false, ((0, 0, 0) : CabinetCoord)), (true, (0, 0, 1))]
        (fun _ => 0) (fun _ b => !b), wire_end_le p.1 p.2) ∧
    (∀ p ∈ instruction_wires [(false, ((0, 0, 0) : CabinetCoord)), (true, (0, 0, 1))]
        (fun _ => 0) (fun _ b => !b),
      (wire_scope p = 0 ∨ wire_scope p = 1 ∨ wire_scope p = 2) ∧
      (wire_scope p = 0 ↔ p.1.1 = p.2.1 ∧ p.1.2.1 = p.2.2.1) ∧
      (wire_scope p = 1 ↔ p.1.1 = p.2.1 ∧ p.1.2.1 ≠ p.2.2.1) ∧
      (wire_scope p = 2 ↔ p.1.1 ≠ p.2.1) ∧
      (p ∈ wires_between_slots
          (instruction_wires [(false, ((0, 0, 0) : CabinetCoord)), (true, (0, 0, 1))]
            (fun _ => 0) (fun _ b => !b)) p.1.1 p.1.2.1 ↔ wire_scope p = 0) ∧
      (p ∈ wires_between_racks
          (instruction_wires [(false, ((0, 0, 0) : CabinetCoord)), (true, (0, 0, 1))]
            (fun _ => 0) (fun _ b => !b)) p.1.1 ↔ wire_scope p = 1) ∧
      (p ∈ wires_between_cabinets
          (instruction_wires [(false, ((0, 0, 0) : CabinetCoord)), (true, (0, 0, 1))]
            (fun _ => 0) (fun _ b => !b)) ↔ wire_scope p = 2)) ∧
    List.Pairwise wire_le
      (generate_wiring_list
        (instruction_wires [(false, ((0, 0, 0) : CabinetCoord)), (true, (0, 0, 1))]
          (fun _ => 0) (fun _ b => !b))) :=
  generate_wiring_instructions_correct
    [(false, (0, 0, 0)), (true, (0, 0, 1))] (fun _ => 0) (fun _ b => !b)

/-! ### Wiring loop theorems (C4) -/

/-- An injection on a finite type returns every point to itself within
`card` iterations. -/
theorem iterate_returns {α : Type} [Fintype α] [DecidableEq α] (f : α → α)
    (hinj : Function.Injective f) (x : α) :
    ∃ k, 1 ≤ k ∧ k ≤ Fintype.card α ∧ f^[k] x = x := by
  obtain ⟨i, j, hij, hg⟩ :=
    Fintype.exists_ne_map_eq_of_card_lt
      (fun i : Fin (Fintype.card α + 1) => f^[(i : ℕ)] x) (by simp)
  rcases Nat.lt_or_ge (i : ℕ) (j : ℕ) with hlt | hge
  · refine ⟨(j : ℕ) - (i : ℕ), by omega, by have := j.isLt; omega, ?_⟩
    have hsplit : f^[(i : ℕ)] (f^[(j : ℕ) - (i : ℕ)] x) = f^[(i : ℕ)] x := by
      rw [← Function.iterate_add_apply]
      have : (i : ℕ) + ((j : ℕ) - (i : ℕ)) = (j : ℕ) := by omega
      rw [this, hg]
    exact (hinj.iterate (i : ℕ)) hsplit
  · have hlt : (j : ℕ) < (i : ℕ) := by
      rcases Nat.lt_or_ge (j : ℕ) (i : ℕ) with hx | hx
      · exact hx
      · exact absurd (Fin.ext (by omega)) hij
    refine ⟨(i : ℕ) - (j : ℕ), by omega, by have := i.isLt; omega, ?_⟩
    have hsplit : f^[(j : ℕ)] (f^[(i : ℕ) - (j : ℕ)] x) = f^[(j : ℕ)] x := by
      rw [← Function.iterate_add_apply]
      have : (j : ℕ) + ((i : ℕ) - (j : ℕ)) = (i : ℕ) := by omega
      rw [this, hg]
    exact (hinj.iterate (j : ℕ)) hsplit

/-- The fuel-bounded loop generator yields exactly one lap of the cycle. -/
theorem wiring_loop_aux_eq {α : Type} [DecidableEq α] (f : α → α) (start : α)
    (k : ℕ) (hret : f^[k] start = start)
    (hmin : ∀ i, 0 < i → i < k → f^[i] start ≠ start) :
    ∀ (fuel i : ℕ), i < k → k ≤ i + fuel →
      wiring_loop_aux f start (f^[i] start) fuel =
        (List.range (k - i)).map (fun j => f^[i + j] start) := by
  intro fuel
  induction fuel with
  | zero =>
      intro i hik hki
      omega
  | succ fuel ih =>
      intro i hik hki
      rw [wiring_loop_aux]
      have hstep : f (f^[i] start) = f^[i + 1] start :=
        (Function.iterate_succ_apply' f i start).symm
      rcases Nat.lt_or_ge (i + 1) k with hik1 | hik1
      · have hcond : ¬ f (f^[i] start) = start := by
          rw [hstep]
          exact hmin (i + 1) (by omega) hik1
        rw [if_neg hcond, hstep, ih (i + 1) hik1 (by omega)]
        have hk : k - i = (k - (i + 1)) + 1 := by omega
        rw [hk, List.range_succ_eq_map, List.map_cons, List.map_map]
        have hz : i + 0 = i := by omega
        have hcomp : ((fun j => f^[i + j] start) ∘ Nat.succ) =
            (fun j => f^[i + 1 + j] start) := by
          funext j
          have : i + (j + 1) = i + 1 + j := by omega
          simp [Function.comp, this]
        rw [hcomp]
        simp
      · have hik1 : i + 1 = k := by omega
        have hcond : f (f^[i] start) = start := by
          rw [hstep, hik1, hret]
        rw [if_pos hcond]
        have hk : k - i = 1 := by omega
        rw [hk]
        simp [List.range_succ]

/-- C4: from any board of any torus, the wiring loop in any fixed direction
terminates within `3 * w * h` (the total board count) steps: after exactly
`k ≤ 3 * w * h` applications of `follow_wire` the start board recurs for the
first time, the visited sequence is the `k` boards
`start, wire(start), ..., wire^[k-1](start)` in which the start appears
exactly once, and `generate_wiring_loop` measures exactly that sequence. -/
theorem wiring_loop_terminates {w h : ℕ} (hw : 0 < w) (hh : 0 < h)
    (d : Direction) (start : Board w h) :
    ∃ k, 1 ≤ k ∧ k ≤ 3 * w * h ∧
      (follow_wire d)^[k] start = start ∧
      (∀ i, 0 < i → i < k → (follow_wire d)^[i] start ≠ start) ∧
      follow_wiring_loop d start =
        (List.range k).map (fun j => (follow_wire d)^[j] start) ∧
      (follow_wiring_loop d start).length = k ∧
      generate_wiring_loop d start = k ∧
      (follow_wiring_loop d start).count start = 1 := by
  haveI : NeZero w := ⟨hw.ne'⟩
  haveI : NeZero h := ⟨hh.ne'⟩
  have hcard : Fintype.card (Board w h) = 3 * w * h := by
    simp [ZMod.card]
    ring
  obtain ⟨k0, hk0_1, hk0_card, hk0_ret⟩ :=
    iterate_returns (follow_wire d) (follow_wire_bijective d).injective start
  have hex : ∃ k, 0 < k ∧ (follow_wire d)^[k] start = start := ⟨k0, hk0_1, hk0_ret⟩
  set k := Nat.find hex with hkdef
  obtain ⟨hkpos, hkret⟩ := Nat.find_spec hex
  have hkle : k ≤ k0 := by
    apply Nat.find_le
    exact ⟨hk0_1, hk0_ret⟩
  have hmin : ∀ i, 0 < i → i < k → (follow_wire d)^[i] start ≠ start := by
    intro i hi hik hbad
    exact (Nat.find_min hex hik) ⟨hi, hbad⟩
  have hkbound : k ≤ 3 * w * h := by
    rw [← hcard]
    omega
  have hloop : follow_wiring_loop d start =
      (List.range k).map (fun j => (follow_wire d)^[j] start) := by
    have := wiring_loop_aux_eq (follow_wire d) start k hkret hmin (3 * w * h) 0
      (by omega) (by omega)
    simpa [follow_wiring_loop] using this
  refine ⟨k, hkpos, hkbound, hkret, hmin, hloop, ?_, ?_, ?_⟩
  · rw [hloop]
    simp
  · rw [generate_wiring_loop, hloop]
    simp
  · rw [hloop]
    obtain ⟨m, hm⟩ : ∃ m, k = m + 1 := ⟨k - 1, by omega⟩
    rw [hm, List.range_succ_eq_map, List.map_cons, List.map_map]
    have h0 : (follow_wire d)^[0] start = start := rfl
    rw [List.count_cons]
    have htail : ((List.range m).map ((fun j => (follow_wire d)^[j] start) ∘ Nat.succ)).count
        start = 0 := by
      apply List.count_eq_zero_of_not_mem
      intro hmem
      obtain ⟨j, hj, hjeq⟩ := List.mem_map.mp hmem
      have hjm := List.mem_range.mp hj
      exact hmin (j + 1) (by omega) (by omega) hjeq
    rw [htail, h0]
    simp

/-- C4 witness: the single-threeboard torus, North direction, start (0,0,0);
the loop has length 3 and the bound is the board count 3. -/
theorem wiring_loop_terminates_witness :
    ∃ k, 1 ≤ k ∧ k ≤ 3 * 1 * 1 ∧
      (follow_wire .north)^[k] ((0, 0, 0) : Board 1 1) = (0, 0, 0) ∧
      (∀ i, 0 < i → i < k →
        (follow_wire .north)^[i] ((0, 0, 0) : Board 1 1) ≠ (0, 0, 0)) ∧
      follow_wiring_loop .north ((0, 0, 0) : Board 1 1) =
        (List.range k).map (fun j => (follow_wire .north)^[j] (0, 0, 0)) ∧
      (follow_wiring_loop .north ((0, 0, 0) : Board 1 1)).length = k ∧
      generate_wiring_loop .north ((0, 0, 0) : Board 1 1) = k ∧
      (follow_wiring_loop .north ((0, 0, 0) : Board 1 1)).count (0, 0, 0) = 1 :=
  wiring_loop_terminates (by norm_num) (by norm_num) .north (0, 0, 0)

end SpiNNer
